import Mathlib

/-!
Verification development for the rita-backend federated-learning service.

The definitions below are a shallow embedding of the TypeScript sources:

* `StreamingFLAggregator` (src/services/StreamingFLAggregator.ts, shipped in
  src/unnamed/part_001 and dist/services/StreamingFLAggregator.js):
  `calculateClientWeight`, `aggregateWeightsStreaming`, `performAggregation`.
  JavaScript numbers are modelled as rationals; the floating-point tolerance
  demanded by the spec covers the rounding difference.
* the Redis-backed key space used by `RitaServer` (src/plugins/swagger.ts) and
  `DatabaseService` (src/services/DatabaseService.ts): keys are modelled
  structurally (the string encodings such as the pending/processing entry keys
  are injective, so a constructor per key family is faithful), values are
  modelled as parsed documents (JSON stringify/parse round-trips).
* the POST /api/v1/fl/weights handler and the aggregateNow helper of
  `RitaServer` (src/plugins/swagger.ts), `SecurityUtils`
  (src/utils/SecurityUtils.ts), and `ModelVersioningService`
  (src/services/MetricsService.ts second half / dist).

Mutable JavaScript state (the Redis store, the in-place mutation of the
updates array) is passed explicitly; `async` plays no role in the sequential
semantics of one handler invocation and is dropped.
-/

/-! ## Streaming aggregator (StreamingFLAggregator.ts) -/

/-- A weighting strategy, third argument of calculateClientWeight. -/
inductive WStrategy
  | uniform
  | data_quality
  | data_size
deriving DecidableEq, Repr

/-- calculateClientWeight(sampleCount, dataQuality = 1.0, strategy = 'data_size'). -/
def calculateClientWeight (sampleCount : ℚ) (dataQuality : ℚ) (strategy : WStrategy) : ℚ :=
  match strategy with
  | .uniform => 1
  | .data_quality => dataQuality
  | .data_size => sampleCount

/-- One element of the updates array passed to aggregateWeightsStreaming:
siteId, the per-layer weight vectors (a JS object, modelled as an association
list) and the scalar weight. -/
structure WUpdate where
  siteId : String
  weights : List (String × List ℚ)
  weight : ℚ
deriving DecidableEq, Repr

/-- The guard of the inner loop: u.weights[layerName] exists and has the
template length. An empty vector is a non-empty JS array only when absent, so
absence is the only falsy case; the length test mirrors !== size. -/
def contribOk (name : String) (size : Nat) (u : WUpdate) : Bool :=
  match u.weights.lookup name with
  | some v => v.length == size
  | none => false

/-- total accumulated for one layer: sum of u.weight over the updates passing
the guard, in array order. -/
def layerTotal (updates : List WUpdate) (name : String) (size : Nat) : ℚ :=
  ((updates.filter (contribOk name size)).map (fun u => u.weight)).sum

/-- the result vector for one layer before the division: starts as zeros and
accumulates u.weights[layerName][i] * u.weight for every contributing update. -/
def layerVec (updates : List WUpdate) (name : String) (size : Nat) : List ℚ :=
  (List.range size).map (fun i =>
    ((updates.filter (contribOk name size)).map
      (fun u => ((u.weights.lookup name).getD []).getD i 0 * u.weight)).sum)

/-- one iteration of the outer loop of aggregateWeightsStreaming: accumulate,
then divide by the total only when it is positive (the `if (total > 0)` guard). -/
def layerAggregate (updates : List WUpdate) (name : String) (size : Nat) : List ℚ :=
  if 0 < layerTotal updates name size then
    (layerVec updates name size).map (fun x => x / layerTotal updates name size)
  else layerVec updates name size

/-- the `delete u.weights[layerName]` statement: a contributing update loses
the layer from its weights object; a skipped update is untouched. -/
def consumeLayer (name : String) (size : Nat) (u : WUpdate) : WUpdate :=
  if contribOk name size u then
    { u with weights := u.weights.filter (fun p => p.1 != name) }
  else u

/-- the outer loop over Object.keys(template) (a snapshot of layer names and
template lengths taken before any deletion): returns the result object and the
mutated updates array. -/
def runLayers : List (String × Nat) → List WUpdate → List (String × List ℚ) × List WUpdate
  | [], updates => ([], updates)
  | (name, size) :: rest, updates =>
    let r := layerAggregate updates name size
    let updates' := updates.map (consumeLayer name size)
    let out := runLayers rest updates'
    ((name, r) :: out.1, out.2)

/-- the template layer list: layer names of the first update paired with the
lengths of its vectors. -/
def templateOf (u : WUpdate) : List (String × Nat) :=
  u.weights.map (fun p => (p.1, p.2.length))

/-- aggregateWeightsStreaming including its effect on the input array; none
models the `throw new Error('No updates to aggregate')` on an empty batch. -/
def aggregateRun : List WUpdate → Option (List (String × List ℚ) × List WUpdate)
  | [] => none
  | u0 :: rest => some (runLayers (templateOf u0) (u0 :: rest))

/-- the return value of aggregateWeightsStreaming. -/
def aggregateWeightsStreaming (updates : List WUpdate) : Option (List (String × List ℚ)) :=
  (aggregateRun updates).map (fun p => p.1)

/-- The stored shape of one accepted update, as written by the upload route:
the zod-validated body plus server-stamped provenance. -/
structure UpdateBody where
  siteId : String
  modelName : String
  weights : List (String × List ℚ)
  dataSampleCount : ℚ
  dataQuality : ℚ
  timestamp : Int
  nonce : String
deriving DecidableEq, Repr

/-- the pending-entry document: { ...body, receivedAt, uploadedBy }. receivedAt
is an ISO string derived from the receive time; we keep the millisecond clock. -/
structure UpdateDoc where
  body : UpdateBody
  receivedAt : Nat
  uploadedBy : String
deriving DecidableEq, Repr

/-- the value returned by performAggregation: the aggregated weights plus the
metadata fields (aggregationTimeMs elapses no model time and is kept at 0). -/
structure AggResultR where
  weights : List (String × List ℚ)
  participantCount : Nat
  participants : List String
deriving DecidableEq, Repr

/-- performAggregation: weight each update with calculateClientWeight using the
default data_size strategy; `u.dataQuality || 1.0` turns the falsy 0 into 1. -/
def performAggregation (docs : List UpdateDoc) : Option AggResultR :=
  let weighted := docs.map (fun u =>
    WUpdate.mk u.body.siteId u.body.weights
      (calculateClientWeight u.body.dataSampleCount
        (if u.body.dataQuality == 0 then 1 else u.body.dataQuality) .data_size))
  match aggregateWeightsStreaming weighted with
  | none => none
  | some w => some ⟨w, docs.length, docs.map (fun u => u.body.siteId)⟩

/-! ### Basic lemmas about the aggregator -/

theorem lookup_filter_ne {α : Type} {l : List (String × α)} {a b : String} (h : a ≠ b) :
    (l.filter (fun p => p.1 != b)).lookup a = l.lookup a := by
  induction l with
  | nil => rfl
  | cons hd tl ih =>
    obtain ⟨k, v⟩ := hd
    by_cases hk : k = b
    · rw [List.filter_cons_of_neg (by simp [hk])]
      rw [ih, List.lookup_cons]
      have h2 : (a == k) = false := by
        subst hk
        exact beq_false_of_ne h
      simp [h2]
    · rw [List.filter_cons_of_pos (by simp [hk])]
      rw [List.lookup_cons, List.lookup_cons]
      cases hab : (a == k) <;> simp [ih]

theorem contribOk_consumeLayer {name n' : String} {size s' : Nat} (u : WUpdate)
    (h : n' ≠ name) : contribOk n' s' (consumeLayer name size u) = contribOk n' s' u := by
  by_cases hc : contribOk name size u
  · rw [consumeLayer, if_pos hc]
    simp only [contribOk, lookup_filter_ne h]
  · rw [consumeLayer, if_neg hc]

theorem lookup_consumeLayer {name n' : String} {size : Nat} (u : WUpdate)
    (h : n' ≠ name) : (consumeLayer name size u).weights.lookup n' = u.weights.lookup n' := by
  by_cases hc : contribOk name size u
  · rw [consumeLayer, if_pos hc]
    exact lookup_filter_ne h
  · rw [consumeLayer, if_neg hc]

theorem layerAggregate_map_consume {name n' : String} {size s' : Nat}
    (updates : List WUpdate) (h : n' ≠ name) :
    layerAggregate (updates.map (consumeLayer name size)) n' s' =
      layerAggregate updates n' s' := by
  have hfil : (updates.map (consumeLayer name size)).filter (contribOk n' s') =
      (updates.filter (contribOk n' s')).map (consumeLayer name size) := by
    rw [List.filter_map]
    congr 1
    apply List.filter_congr
    intro u _
    simp only [Function.comp]
    exact contribOk_consumeLayer u h
  have htot : layerTotal (updates.map (consumeLayer name size)) n' s' =
      layerTotal updates n' s' := by
    unfold layerTotal
    rw [hfil, List.map_map]
    congr 1
    apply List.map_congr_left
    intro u _
    simp [Function.comp, consumeLayer]
    by_cases hc : contribOk name size u <;> simp [hc]
  have hvec : layerVec (updates.map (consumeLayer name size)) n' s' =
      layerVec updates n' s' := by
    unfold layerVec
    apply List.map_congr_left
    intro i _
    rw [hfil, List.map_map]
    congr 1
    apply List.map_congr_left
    intro u _
    simp only [Function.comp]
    rw [lookup_consumeLayer u h]
    rcases hw : consumeLayer name size u with ⟨s, w, wt⟩
    have : (consumeLayer name size u).weight = u.weight := by
      unfold consumeLayer
      by_cases hc : contribOk name size u <;> simp [hc]
    simp [hw] at this
    simp [this]
  unfold layerAggregate
  rw [htot, hvec]

theorem runLayers_fst (ls : List (String × Nat)) (updates : List WUpdate)
    (h : (ls.map Prod.fst).Nodup) :
    (runLayers ls updates).1 = ls.map (fun p => (p.1, layerAggregate updates p.1 p.2)) := by
  induction ls generalizing updates with
  | nil => rfl
  | cons hd tl ih =>
    obtain ⟨name, size⟩ := hd
    simp only [List.map_cons, List.nodup_cons, List.mem_map] at h
    obtain ⟨hnm, hnd⟩ := h
    have hstep : (runLayers ((name, size) :: tl) updates).1 =
        (name, layerAggregate updates name size) ::
          (runLayers tl (updates.map (consumeLayer name size))).1 := rfl
    rw [hstep, ih _ hnd, List.map_cons]
    congr 1
    apply List.map_congr_left
    intro p hp
    have hne : p.1 ≠ name := fun he => hnm ⟨p, hp, he⟩
    rw [layerAggregate_map_consume _ hne]

theorem runLayers_snd (ls : List (String × Nat)) (updates : List WUpdate) :
    (runLayers ls updates).2 =
      updates.map (fun u => ls.foldl (fun v p => consumeLayer p.1 p.2 v) u) := by
  induction ls generalizing updates with
  | nil => simp [runLayers]
  | cons hd tl ih =>
    obtain ⟨name, size⟩ := hd
    have hstep : (runLayers ((name, size) :: tl) updates).2 =
        (runLayers tl (updates.map (consumeLayer name size))).2 := rfl
    rw [hstep, ih, List.map_map]
    apply List.map_congr_left
    intro u _
    simp [Function.comp, List.foldl_cons]

theorem aggregateWS_eq (u0 : WUpdate) (rest : List WUpdate)
    (hnd : ((templateOf u0).map Prod.fst).Nodup) :
    aggregateWeightsStreaming (u0 :: rest) =
      some ((templateOf u0).map (fun p => (p.1, layerAggregate (u0 :: rest) p.1 p.2))) := by
  have h1 : aggregateWeightsStreaming (u0 :: rest) =
      some ((runLayers (templateOf u0) (u0 :: rest)).1) := rfl
  rw [h1, runLayers_fst _ _ hnd]

theorem lookup_map_pair {β γ : Type} (l : List (String × β)) (g : String → β → γ)
    (a : String) (b : β) (hnd : (l.map Prod.fst).Nodup) (hmem : (a, b) ∈ l) :
    (l.map (fun p => (p.1, g p.1 p.2))).lookup a = some (g a b) := by
  induction l with
  | nil => cases hmem
  | cons hd tl ih =>
    obtain ⟨k, v⟩ := hd
    simp only [List.map_cons, List.nodup_cons, List.mem_map] at hnd
    obtain ⟨hk, hnd⟩ := hnd
    rcases List.mem_cons.mp hmem with he | hm
    · injection he with h1 h2
      subst h1
      subst h2
      rw [List.map_cons, List.lookup_cons]
      simp
    · have hne : a ≠ k := by
        rintro rfl
        exact hk ⟨(a, b), hm, rfl⟩
      rw [List.map_cons, List.lookup_cons]
      simp only [beq_false_of_ne hne]
      exact ih hnd hm

theorem sum_map_weight_eq_length {l : List WUpdate} (h : ∀ u ∈ l, u.weight = 1) :
    (l.map (fun u => u.weight)).sum = (l.length : ℚ) := by
  induction l with
  | nil => simp
  | cons hd tl ih =>
    rw [List.map_cons, List.sum_cons, h hd (by simp),
      ih (fun u hu => h u (List.mem_cons_of_mem _ hu)), List.length_cons]
    push_cast
    ring

/-! ### C6 helpers: permutation invariance of the per-layer computation -/

theorem layerTotal_perm {l l' : List WUpdate} (h : l.Perm l') (name : String) (size : Nat) :
    layerTotal l name size = layerTotal l' name size :=
  ((h.filter _).map _).sum_eq

theorem layerVec_perm {l l' : List WUpdate} (h : l.Perm l') (name : String) (size : Nat) :
    layerVec l name size = layerVec l' name size := by
  unfold layerVec
  apply List.map_congr_left
  intro i _
  exact ((h.filter _).map _).sum_eq

theorem layerAggregate_perm {l l' : List WUpdate} (h : l.Perm l') (name : String) (size : Nat) :
    layerAggregate l name size = layerAggregate l' name size := by
  unfold layerAggregate
  rw [layerTotal_perm h, layerVec_perm h]

/-! ### Claim C6 -/

/-- concrete inputs for the C6 counterexample: two updates whose layer sets
differ, so the template (taken from whichever update comes first) differs. -/
def c6u1 : WUpdate := ⟨"siteA", [("a", [1])], 1⟩

def c6u2 : WUpdate := ⟨"siteB", [("b", [2])], 1⟩

/-- C6 counterexample: the streaming aggregation is NOT invariant under
permutation of the update list in general. The template is taken from the
first update, so swapping two updates with different layer sets changes the
aggregated layer set: in one order layer a is produced, in the other it is
absent (and no tolerance can reconcile some-versus-none). -/
theorem c6_counterexample :
    [c6u1, c6u2].Perm [c6u2, c6u1] ∧
    (aggregateWeightsStreaming [c6u1, c6u2]).bind (fun r => r.lookup "a") = some [1] ∧
    (aggregateWeightsStreaming [c6u2, c6u1]).bind (fun r => r.lookup "a") = none := by
  refine ⟨List.Perm.swap _ _ _, by with_unfolding_all rfl, by with_unfolding_all rfl⟩

/-- C6 amended: weighted aggregation is invariant to input order provided all
updates share the layer template (same layer names and vector lengths, which
also makes the template independent of which update comes first); the
per-layer results are then literally equal, not merely within tolerance. -/
theorem c6_amended_perm_invariant
    (u0 : WUpdate) (rest updates' : List WUpdate)
    (hperm : (u0 :: rest).Perm updates')
    (hshape : ∀ u ∈ u0 :: rest, templateOf u = templateOf u0)
    (hnd : ((templateOf u0).map Prod.fst).Nodup) :
    aggregateWeightsStreaming (u0 :: rest) = aggregateWeightsStreaming updates' := by
  cases updates' with
  | nil =>
    have := hperm.length_eq
    simp at this
  | cons v0 rest' =>
    have hv0mem : v0 ∈ u0 :: rest := hperm.mem_iff.mpr (by simp)
    have hv0 : templateOf v0 = templateOf u0 := hshape v0 hv0mem
    rw [aggregateWS_eq u0 rest hnd, aggregateWS_eq v0 rest' (by rw [hv0]; exact hnd)]
    rw [hv0]
    congr 1
    apply List.map_congr_left
    intro p _
    rw [layerAggregate_perm hperm]

/-- C6 witness: the amended invariance theorem applied to a concrete pair of
shape-sharing updates and the swap permutation. -/
theorem c6_amended_witness :
    aggregateWeightsStreaming
        [⟨"A", [("a", [1, 2])], 2⟩, ⟨"B", [("a", [3, 4])], 1⟩] =
      aggregateWeightsStreaming
        [⟨"B", [("a", [3, 4])], 1⟩, ⟨"A", [("a", [1, 2])], 2⟩] := by
  exact c6_amended_perm_invariant _ [⟨"B", [("a", [3, 4])], 1⟩] _
    (List.Perm.swap _ _ _) (by decide) (by decide)

/-! ### Claim C9 -/

/-- C9: when every contributor carries the uniform-strategy weight (1.0) and
every update supplies the template layer at the template length, the per-layer
aggregate is the unweighted elementwise arithmetic mean of the contributed
vectors. -/
theorem c9_uniform_gives_mean
    (u0 : WUpdate) (rest : List WUpdate) (name : String) (tv : List ℚ)
    (hmem : (name, tv) ∈ u0.weights)
    (hnd : ((templateOf u0).map Prod.fst).Nodup)
    (hshape : ∀ u ∈ u0 :: rest, contribOk name tv.length u = true)
    (hw : ∀ u ∈ u0 :: rest, ∃ sc dq, u.weight = calculateClientWeight sc dq .uniform) :
    (aggregateWeightsStreaming (u0 :: rest)).bind (fun r => r.lookup name) =
      some ((List.range tv.length).map (fun i =>
        ((u0 :: rest).map (fun u => ((u.weights.lookup name).getD []).getD i 0)).sum
          / ((u0 :: rest).length : ℚ))) := by
  have hw1 : ∀ u ∈ u0 :: rest, u.weight = 1 := by
    intro u hu
    obtain ⟨sc, dq, h⟩ := hw u hu
    simpa [calculateClientWeight] using h
  rw [aggregateWS_eq u0 rest hnd]
  have hmemT : (name, tv.length) ∈ templateOf u0 := by
    unfold templateOf
    exact List.mem_map.mpr ⟨(name, tv), hmem, rfl⟩
  simp only [Option.some_bind]
  rw [lookup_map_pair _ _ _ _ hnd hmemT]
  congr 1
  have hfil : (u0 :: rest).filter (contribOk name tv.length) = u0 :: rest :=
    List.filter_eq_self.mpr hshape
  have htot : layerTotal (u0 :: rest) name tv.length = ((u0 :: rest).length : ℚ) := by
    unfold layerTotal
    rw [hfil]
    exact sum_map_weight_eq_length hw1
  have hpos : 0 < layerTotal (u0 :: rest) name tv.length := by
    rw [htot]
    exact_mod_cast Nat.succ_pos rest.length
  unfold layerAggregate
  rw [if_pos hpos, htot]
  unfold layerVec
  rw [hfil, List.map_map]
  apply List.map_congr_left
  intro i _
  simp only [Function.comp]
  have hone : ((u0 :: rest).map
        (fun u => ((u.weights.lookup name).getD []).getD i 0 * u.weight)) =
      ((u0 :: rest).map (fun u => ((u.weights.lookup name).getD []).getD i 0)) :=
    List.map_congr_left (fun u hu => by rw [hw1 u hu, mul_one])
  rw [hone]

/-- C9 witness: three uniform-weight updates on one two-element layer; the
aggregate is their elementwise mean. -/
theorem c9_witness :
    (aggregateWeightsStreaming
        [⟨"A", [("a", [1, 2])], 1⟩, ⟨"B", [("a", [3, 4])], 1⟩,
         ⟨"C", [("a", [5, 6])], 1⟩]).bind (fun r => r.lookup "a") =
      some ((List.range 2).map (fun i =>
        (([⟨"A", [("a", [1, 2])], 1⟩, ⟨"B", [("a", [3, 4])], 1⟩,
           ⟨"C", [("a", [5, 6])], 1⟩] : List WUpdate).map
            (fun u => ((u.weights.lookup "a").getD []).getD i 0)).sum / (3 : ℚ))) := by
  have h := c9_uniform_gives_mean ⟨"A", [("a", [1, 2])], 1⟩
    [⟨"B", [("a", [3, 4])], 1⟩, ⟨"C", [("a", [5, 6])], 1⟩] "a" [1, 2]
    (by with_unfolding_all decide) (by decide) (by with_unfolding_all decide)
    (by
      intro u hu
      fin_cases hu <;> exact ⟨1, 1, rfl⟩)
  simpa using h

/-! ### Claim C8 -/

/-- C8: when a template layer receives zero total weight -- every update either
fails the layer guard or carries weight 0 -- the layer result is the all-zero
vector of the template length, the division is skipped (the `if (total > 0)`
guard), and the whole aggregation still succeeds. -/
theorem c8_zero_weight_layer_zero
    (u0 : WUpdate) (rest : List WUpdate) (name : String) (tv : List ℚ)
    (hmem : (name, tv) ∈ u0.weights)
    (hnd : ((templateOf u0).map Prod.fst).Nodup)
    (hz : ∀ u ∈ u0 :: rest, contribOk name tv.length u = false ∨ u.weight = 0) :
    (aggregateWeightsStreaming (u0 :: rest)).isSome = true ∧
      (aggregateWeightsStreaming (u0 :: rest)).bind (fun r => r.lookup name) =
        some (List.replicate tv.length 0) := by
  have hmemT : (name, tv.length) ∈ templateOf u0 :=
    List.mem_map.mpr ⟨(name, tv), hmem, rfl⟩
  constructor
  · rw [aggregateWS_eq u0 rest hnd]
    rfl
  · rw [aggregateWS_eq u0 rest hnd]
    simp only [Option.some_bind]
    rw [lookup_map_pair _ _ _ _ hnd hmemT]
    congr 1
    have hwz : ∀ u ∈ (u0 :: rest).filter (contribOk name tv.length), u.weight = 0 := by
      intro u hu
      obtain ⟨humem, hok⟩ := List.mem_filter.mp hu
      rcases hz u humem with h | h
      · simp [hok] at h
      · exact h
    have htot : layerTotal (u0 :: rest) name tv.length = 0 := by
      unfold layerTotal
      apply List.sum_eq_zero
      intro x hx
      obtain ⟨u, hu, rfl⟩ := List.mem_map.mp hx
      exact hwz u hu
    have hvec : layerVec (u0 :: rest) name tv.length = List.replicate tv.length 0 := by
      unfold layerVec
      have hz0 : ∀ i ∈ List.range tv.length,
          (((u0 :: rest).filter (contribOk name tv.length)).map
            (fun u => ((u.weights.lookup name).getD []).getD i 0 * u.weight)).sum = (0:ℚ) := by
        intro i _
        apply List.sum_eq_zero
        intro x hx
        obtain ⟨u, hu, rfl⟩ := List.mem_map.mp hx
        rw [hwz u hu, mul_zero]
      rw [List.map_congr_left hz0]
      simp
    unfold layerAggregate
    rw [htot]
    simp [hvec]

/-- C8 witness: site A supplies the layer with weight 0 and site B lacks the
layer entirely, so the layer total is zero; the layer aggregates to zeros and
the call succeeds. -/
theorem c8_witness :
    (aggregateWeightsStreaming [⟨"A", [("a", [1, 2])], 0⟩, ⟨"B", [], 5⟩]).isSome = true ∧
      (aggregateWeightsStreaming [⟨"A", [("a", [1, 2])], 0⟩, ⟨"B", [], 5⟩]).bind
        (fun r => r.lookup "a") = some (List.replicate 2 0) := by
  exact c8_zero_weight_layer_zero _ _ _ [1, 2] (by with_unfolding_all decide) (by decide)
    (by
      intro u hu
      fin_cases hu
      · exact Or.inr rfl
      · exact Or.inl rfl)

/-! ### Claim C10 helpers -/

theorem lookup_filter_self {α : Type} (l : List (String × α)) (b : String) :
    (l.filter (fun p => p.1 != b)).lookup b = none := by
  rw [List.lookup_eq_none_iff]
  intro p hp
  obtain ⟨hpl, hne⟩ := List.mem_filter.mp hp
  have hne' : p.1 ≠ b := by simpa using hne
  exact bne_iff_ne.mpr (Ne.symm hne')

theorem lookup_none_filter {α : Type} {l : List (String × α)} {name : String}
    (q : String × α → Bool) (h : l.lookup name = none) :
    (l.filter q).lookup name = none := by
  rw [List.lookup_eq_none_iff] at h ⊢
  intro p hp
  exact h p (List.mem_filter.mp hp).1

theorem lookup_consume_none (n : String) (s : Nat) (v : WUpdate) (name : String)
    (h : v.weights.lookup name = none) :
    (consumeLayer n s v).weights.lookup name = none := by
  by_cases hc : contribOk n s v
  · rw [consumeLayer, if_pos hc]
    exact lookup_none_filter _ h
  · rw [consumeLayer, if_neg hc]
    exact h

theorem foldl_consume_none (ls : List (String × Nat)) (u : WUpdate) (name : String)
    (h : u.weights.lookup name = none) :
    ((ls.foldl (fun v p => consumeLayer p.1 p.2 v) u).weights.lookup name) = none := by
  induction ls generalizing u with
  | nil => exact h
  | cons hd tl ih =>
    rw [List.foldl_cons]
    exact ih _ (lookup_consume_none _ _ _ _ h)

theorem foldl_consume_lookup_none (ls : List (String × Nat)) (u : WUpdate)
    (name : String) (size : Nat) (hnd : (ls.map Prod.fst).Nodup)
    (hmem : (name, size) ∈ ls) (hok : contribOk name size u = true) :
    ((ls.foldl (fun v p => consumeLayer p.1 p.2 v) u).weights.lookup name) = none := by
  induction ls generalizing u with
  | nil => cases hmem
  | cons hd tl ih =>
    obtain ⟨n1, s1⟩ := hd
    simp only [List.map_cons, List.nodup_cons, List.mem_map] at hnd
    obtain ⟨hn1, hnd⟩ := hnd
    rw [List.foldl_cons]
    rcases List.mem_cons.mp hmem with he | hm
    · injection he with h1 h2
      subst h1
      subst h2
      apply foldl_consume_none
      rw [consumeLayer, if_pos hok]
      exact lookup_filter_self _ _
    · have hne : name ≠ n1 := by
        rintro rfl
        exact hn1 ⟨(name, size), hm, rfl⟩
      have hok2 : contribOk name size (consumeLayer n1 s1 u) = true := by
        rw [contribOk_consumeLayer u hne]
        exact hok
      exact ih (consumeLayer n1 s1 u) hnd hm hok2

theorem foldl_consume_template (l : List (String × List ℚ)) (u : WUpdate)
    (hu : u.weights = l) (hnd : (l.map Prod.fst).Nodup) :
    ((l.map (fun p => (p.1, p.2.length))).foldl (fun v p => consumeLayer p.1 p.2 v) u).weights
      = [] := by
  induction l generalizing u with
  | nil => simpa using hu
  | cons hd tl ih =>
    obtain ⟨n1, v1⟩ := hd
    simp only [List.map_cons, List.nodup_cons, List.mem_map] at hnd
    obtain ⟨hn1, hnd⟩ := hnd
    rw [List.map_cons, List.foldl_cons]
    apply ih
    · have hok : contribOk n1 v1.length u = true := by
        unfold contribOk
        rw [hu, List.lookup_cons]
        simp
      rw [consumeLayer, if_pos hok]
      show (u.weights.filter (fun p => p.1 != n1)) = tl
      rw [hu, List.filter_cons_of_neg (by simp)]
      apply List.filter_eq_self.mpr
      intro p hp
      have hne : p.1 ≠ n1 := fun he => hn1 ⟨p, hp, he⟩
      simp [hne]
    · exact hnd

theorem templateOf_keys (u : WUpdate) :
    (templateOf u).map Prod.fst = u.weights.map Prod.fst := by
  unfold templateOf
  rw [List.map_map]
  rfl

theorem aggregateWS_cons (c : WUpdate) (cs : List WUpdate) :
    aggregateWeightsStreaming (c :: cs) =
      some ((runLayers (templateOf c) (c :: cs)).1) := rfl

/-! ### Claim C10 -/

/-- C10: aggregateWeightsStreaming mutates its input. The returned array state
is the pointwise consumption of every template layer; any update that matched a
template layer has lost that layer afterwards; in particular the first update
(the template donor) has an empty weights object, so re-invoking the operation
on the consumed array yields the empty result object, which differs from the
original result whenever the template was non-empty. -/
theorem c10_aggregation_consumes_input (u0 : WUpdate) (rest : List WUpdate)
    (hnd : ((templateOf u0).map Prod.fst).Nodup)
    (hne : u0.weights ≠ []) :
    (aggregateRun (u0 :: rest)).map Prod.snd =
        some ((u0 :: rest).map
          (fun u => (templateOf u0).foldl (fun v p => consumeLayer p.1 p.2 v) u)) ∧
      (∀ u : WUpdate, ∀ p ∈ templateOf u0, contribOk p.1 p.2 u = true →
        (((templateOf u0).foldl (fun v q => consumeLayer q.1 q.2 v) u).weights.lookup p.1)
          = none) ∧
      aggregateWeightsStreaming ((u0 :: rest).map
          (fun u => (templateOf u0).foldl (fun v p => consumeLayer p.1 p.2 v) u)) = some [] ∧
      aggregateWeightsStreaming (u0 :: rest) ≠ some [] := by
  refine ⟨?_, ?_, ?_, ?_⟩
  · have h1 : (aggregateRun (u0 :: rest)).map Prod.snd =
        some ((runLayers (templateOf u0) (u0 :: rest)).2) := rfl
    rw [h1, runLayers_snd]
  · intro u p hp hok
    obtain ⟨name, size⟩ := p
    exact foldl_consume_lookup_none _ _ _ _ hnd hp hok
  · have hndw : (u0.weights.map Prod.fst).Nodup := by
      rw [← templateOf_keys]
      exact hnd
    have hu0 : ((templateOf u0).foldl (fun v p => consumeLayer p.1 p.2 v) u0).weights = [] :=
      foldl_consume_template u0.weights u0 rfl hndw
    have ht : templateOf ((templateOf u0).foldl (fun v p => consumeLayer p.1 p.2 v) u0)
        = [] := by
      have hdef : templateOf ((templateOf u0).foldl (fun v p => consumeLayer p.1 p.2 v) u0) =
          (((templateOf u0).foldl (fun v p => consumeLayer p.1 p.2 v) u0).weights).map
            (fun p => (p.1, p.2.length)) := rfl
      rw [hdef, hu0]
      rfl
    rw [List.map_cons, aggregateWS_cons, ht]
    rfl
  · rw [aggregateWS_eq u0 rest hnd]
    intro hcontra
    simp only [Option.some.injEq, List.map_eq_nil_iff] at hcontra
    unfold templateOf at hcontra
    rw [List.map_eq_nil_iff] at hcontra
    exact hne hcontra

/-- concrete single-update input for the C10 witness. -/
def c10u : WUpdate := ⟨"A", [("a", [1])], 1⟩

/-- C10 witness: the consumption theorem applied to one concrete update. -/
theorem c10_witness :
    (aggregateRun [c10u]).map Prod.snd =
        some ([c10u].map
          (fun u => (templateOf c10u).foldl (fun v p => consumeLayer p.1 p.2 v) u)) ∧
      (∀ u : WUpdate, ∀ p ∈ templateOf c10u, contribOk p.1 p.2 u = true →
        (((templateOf c10u).foldl (fun v q => consumeLayer q.1 q.2 v) u).weights.lookup p.1)
          = none) ∧
      aggregateWeightsStreaming ([c10u].map
          (fun u => (templateOf c10u).foldl (fun v p => consumeLayer p.1 p.2 v) u)) = some [] ∧
      aggregateWeightsStreaming [c10u] ≠ some [] :=
  c10_aggregation_consumes_input c10u [] (by decide) (by with_unfolding_all decide)

/-! ## The Redis-backed key space

Keys are modelled structurally, one constructor per string-key family
(braces denote the Redis hash tag). keyStr below spells out the encodings.
The rendering is faithful for model names that contain neither :pending: nor
:processing: as a substring and no Redis MATCH metacharacter (benignModelName
below): for those the families are disjoint, the first-occurrence
String.replace of the state segment is the structural retag
(promote_replace_models_retag, revert_replace_models_retag), and the MATCH
scan pattern is a literal prefix. zod bounds modelName only in length, so
other names are reachable; c3_counterexample works one such name out at the
string level. The key families:

* nonce model site n    for  fl:(tag model):nonce:(site):(n)
* entry model st site t for  fl:(tag model):(st):(model):(site):(t)
* modelVersion m v      for  fl:models:(m):(v)
* modelLatest m         for  fl:models:(m):latest
* modelHistory m        for  fl:models:(m):history     (a Redis list)
* modelSet              for  fl:models:set             (a Redis set)
-/

/-- the two ledger namespaces an update entry moves between. -/
inductive EntryState
  | pending
  | processing
deriving DecidableEq, Repr

/-- the committed model document written by aggregateNow: modelName, weights,
the metadata fields (participants, participantCount, aggregationTimeMs),
createdAt and version. -/
structure ModelPayload where
  modelName : String
  weights : List (String × List ℚ)
  participants : List String
  createdAt : Nat
  participantCount : Nat
  aggregationTimeMs : Nat
  version : String
deriving DecidableEq, Repr

/-- the structured key space (see the section comment for the encodings). -/
inductive KeyK
  | nonce (model site n : String)
  | entry (model : String) (state : EntryState) (site : String) (ts : Nat)
  | modelVersion (model version : String)
  | modelLatest (model : String)
  | modelHistory (model : String)
  | modelSet
deriving DecidableEq, Repr

/-- a stored string value: either an opaque string (the nonce marker, or a
blob that does not parse as an update document), a JSON update document, or a
JSON model document. JSON.stringify/JSON.parse round-trip, so values are kept
parsed. -/
inductive Val
  | raw (s : String)
  | update (d : UpdateDoc)
  | model (p : ModelPayload)
deriving DecidableEq, Repr

/-- one Redis string entry with optional expiry (absolute milliseconds). -/
structure StoreEntry where
  key : KeyK
  val : Val
  exp : Option Nat
deriving DecidableEq, Repr

/-- the store: string keys, list keys and set keys (disjoint key families). -/
structure Store where
  kv : List StoreEntry
  lists : List (KeyK × List String)
  sets : List (KeyK × List String)
deriving DecidableEq, Repr

/-- a string entry is alive at time now when it has no expiry or has not
reached it (Redis PX/EX semantics). -/
def StoreEntry.live (e : StoreEntry) (now : Nat) : Bool :=
  match e.exp with
  | none => true
  | some t => now < t

/-- GET: the value and expiry of the live entry under a key, if any. -/
def Store.getLive (st : Store) (k : KeyK) (now : Nat) : Option (Val × Option Nat) :=
  (st.kv.find? (fun e => e.key == k && e.live now)).map (fun e => (e.val, e.exp))

/-- drop every physical entry under a key. -/
def Store.eraseKey (st : Store) (k : KeyK) : Store :=
  { st with kv := st.kv.filter (fun e => e.key != k) }

/-- SET key value PX ttl NX: succeeds (and writes with expiry now+px) only when
no live entry exists; a false reply leaves the store untouched. -/
def Store.setPxNx (st : Store) (k : KeyK) (v : Val) (px : Nat) (now : Nat) :
    Bool × Store :=
  match st.getLive k now with
  | some _ => (false, st)
  | none => (true, { st with kv := ⟨k, v, some (now + px)⟩ :: (st.eraseKey k).kv })

/-- SETEX key ttlSeconds value: overwrite with expiry now + ttl*1000. -/
def Store.setex (st : Store) (k : KeyK) (ttlSec : Nat) (v : Val) (now : Nat) : Store :=
  { st with kv := ⟨k, v, some (now + ttlSec * 1000)⟩ :: (st.eraseKey k).kv }

/-- SET key value (no expiry). -/
def Store.setPlain (st : Store) (k : KeyK) (v : Val) : Store :=
  { st with kv := ⟨k, v, none⟩ :: (st.eraseKey k).kv }

/-- RENAME src dst: moves value and remaining TTL onto dst (overwriting it);
renaming a missing (or expired) source is an error reply that the pipelined
callers tolerate, leaving the store unchanged. -/
def Store.rename (st : Store) (src dst : KeyK) (now : Nat) : Store :=
  match st.getLive src now with
  | none => st
  | some (v, e) =>
    { st with kv := ⟨dst, v, e⟩ :: (((st.eraseKey src).eraseKey dst).kv) }

/-- DEL key. -/
def Store.del (st : Store) (k : KeyK) : Store := st.eraseKey k

/-- LPUSH key x. -/
def Store.lpush (st : Store) (k : KeyK) (x : String) : Store :=
  { st with lists :=
      (k, x :: ((st.lists.lookup k).getD [])) :: st.lists.filter (fun p => p.1 != k) }

/-- LTRIM key 0 9: keep the ten newest elements. -/
def Store.ltrimTen (st : Store) (k : KeyK) : Store :=
  { st with lists :=
      (k, ((st.lists.lookup k).getD []).take 10) :: st.lists.filter (fun p => p.1 != k) }

/-- LRANGE key 0 -1. -/
def Store.lrangeAll (st : Store) (k : KeyK) : List String :=
  (st.lists.lookup k).getD []

/-- SADD key x. -/
def Store.sadd (st : Store) (k : KeyK) (x : String) : Store :=
  let cur := (st.sets.lookup k).getD []
  { st with sets :=
      (k, if cur.contains x then cur else x :: cur) :: st.sets.filter (fun p => p.1 != k) }

/-- well-formedness: at most one physical entry per string key (every write
path below erases before consing, so this is preserved). -/
def Store.Wf (st : Store) : Prop := (st.kv.map (fun e => e.key)).Nodup

/-! ## SecurityUtils (src/utils/SecurityUtils.ts) -/

/-- validateHMAC(raw, signature, secret): the HMAC-SHA256 keyed digest is
abstracted as a function mac from message strings to hex digests already
closed over the secret; the timing-safe buffer comparison of two equal-length
hex strings is equality of canonical digests. -/
def validateHMAC (mac : String → String) (raw signature : String) : Bool :=
  mac raw == signature

/-- isRecentTimestamp(ts, windowMs = 300000): absolute distance between the
server clock and the producer timestamp is within the window. -/
def isRecentTimestamp (now : Nat) (ts : Int) (windowMs : Nat := 300000) : Bool :=
  ((now : Int) - ts).natAbs ≤ windowMs

/-! ## zod validation of the upload body (src/plugins/swagger.ts) -/

/-- characters admitted by the siteId regex. -/
def isSiteChar (c : Char) : Bool := c.isAlphanum || c == '_' || c == '-'

/-- hexadecimal digit, either case. -/
def isHexChar (c : Char) : Bool :=
  c.isDigit || ('a' ≤ c && c ≤ 'f') || ('A' ≤ c && c ≤ 'F')

/-- the 8-4-4-4-12 hex groups of the uuid format checked by z.string().uuid(). -/
def uuidGroups (gs : List Nat) (cs : List Char) : Bool :=
  match gs, cs with
  | [], _ => false
  | [n], rest => rest.length == n && rest.all isHexChar
  | n :: gtail, rest =>
    ((rest.take n).length == n && (rest.take n).all isHexChar) &&
      match rest.drop n with
      | '-' :: more => uuidGroups gtail more
      | _ => false

/-- z.string().uuid() on the nonce. -/
def isUuid (s : String) : Bool := uuidGroups [8, 4, 4, 4, 12] s.toList

/-- the zod refinements of the upload body (structural JSON mismatches are the
none case of the optional body below; weight finiteness always holds over ℚ). -/
def zodValid (b : UpdateBody) : Bool :=
  (1 ≤ b.siteId.length && b.siteId.length ≤ 50 && b.siteId.toList.all isSiteChar) &&
    (1 ≤ b.modelName.length && b.modelName.length ≤ 100) &&
    decide (0 < b.dataSampleCount) &&
    (decide (0 ≤ b.dataQuality) && decide (b.dataQuality ≤ 1)) &&
    decide (0 < b.timestamp) &&
    isUuid b.nonce

/-! ## POST /api/v1/fl/weights (src/plugins/swagger.ts, setupRoutes) -/

/-- the route replies, by HTTP status and error string. -/
inductive SubmitResult
  | unauthorized
  | payloadTooLarge
  | missingSignature
  | invalidSignature
  | badRequest
  | staleTimestamp
  | replay
  | uploaded (key : KeyK)
deriving DecidableEq, Repr

/-- the handler body. Inputs: the abstract keyed MAC, the authenticated user
(none replies 401), the raw transport bytes when fastify-raw-body supplied
them, the canonical string JSON.stringify(request.body), the zod view of the
parsed JSON body (none when the body does not match the schema shape), the
x-signature header, the server clock and the store. Check order follows the
source: size, missing signature, HMAC over raw-or-canonical, zod parse,
timestamp freshness, nonce SET NX (replay), pending SETEX. -/
def submitUpdate (mac : String → String) (user : Option String)
    (rawStr : Option String) (canonical : String) (body? : Option UpdateBody)
    (signature : Option String) (now : Nat) (st : Store) : SubmitResult × Store :=
  match user with
  | none => (.unauthorized, st)
  | some u =>
    let toVerify : List String :=
      (match rawStr with | some r => [r] | none => []) ++ [canonical]
    if (match rawStr with | some r => r.length | none => canonical.length)
        > 2 * 1024 * 1024 then (.payloadTooLarge, st)
    else
      match signature with
      | none => (.missingSignature, st)
      | some sig =>
        if !(toVerify.any (fun s => validateHMAC mac s sig)) then (.invalidSignature, st)
        else
          match body? with
          | none => (.badRequest, st)
          | some b =>
            if !(zodValid b) then (.badRequest, st)
            else if !(isRecentTimestamp now b.timestamp) then (.staleTimestamp, st)
            else
              let nres := st.setPxNx (.nonce b.modelName b.siteId b.nonce)
                (.raw "1") (5 * 60000) now
              if !nres.1 then (.replay, nres.2)
              else
                let key := KeyK.entry b.modelName .pending b.siteId now
                let doc : UpdateDoc := ⟨b, now, u⟩
                (.uploaded key, (nres.2).setex key 3600 (.update doc) now)

/-- the store state after a successful upload: the nonce reservation written
with the 5-minute PX expiry, then the pending entry written with SETEX 3600. -/
def acceptStore (b : UpdateBody) (u : String) (now : Nat) (st : Store) : Store :=
  ((st.setPxNx (.nonce b.modelName b.siteId b.nonce) (.raw "1") (5 * 60000) now).2).setex
    (KeyK.entry b.modelName .pending b.siteId now) 3600 (.update ⟨b, now, u⟩) now

/-! ### Evaluation lemmas for the upload handler -/

theorem submitUpdate_accepts (mac : String → String) (u r canonical sig : String)
    (b : UpdateBody) (now : Nat) (st : Store)
    (hsize : r.length ≤ 2 * 1024 * 1024)
    (hgood : (validateHMAC mac r sig || validateHMAC mac canonical sig) = true)
    (hzod : zodValid b = true)
    (hrec : isRecentTimestamp now b.timestamp = true)
    (hfree : st.getLive (.nonce b.modelName b.siteId b.nonce) now = none) :
    submitUpdate mac (some u) (some r) canonical (some b) (some sig) now st =
      (.uploaded (KeyK.entry b.modelName .pending b.siteId now), acceptStore b u now st) := by
  unfold submitUpdate acceptStore Store.setPxNx
  have hnand : ¬(validateHMAC mac r sig = false ∧ validateHMAC mac canonical sig = false) := by
    rcases Bool.or_eq_true_iff.mp hgood with h | h <;> simp [h]
  have hgt : ¬ (r.length > 2 * 1024 * 1024) := by omega
  simp [hgt, hnand, hzod, hrec, hfree]

theorem submitUpdate_replay (mac : String → String) (u r canonical sig : String)
    (b : UpdateBody) (now : Nat) (st : Store)
    (hsize : r.length ≤ 2 * 1024 * 1024)
    (hgood : (validateHMAC mac r sig || validateHMAC mac canonical sig) = true)
    (hzod : zodValid b = true)
    (hrec : isRecentTimestamp now b.timestamp = true)
    (hbusy : (st.getLive (.nonce b.modelName b.siteId b.nonce) now).isSome = true) :
    submitUpdate mac (some u) (some r) canonical (some b) (some sig) now st =
      (.replay, st) := by
  unfold submitUpdate Store.setPxNx
  obtain ⟨w, hw⟩ := Option.isSome_iff_exists.mp hbusy
  have hnand : ¬(validateHMAC mac r sig = false ∧ validateHMAC mac canonical sig = false) := by
    rcases Bool.or_eq_true_iff.mp hgood with h | h <;> simp [h]
  have hgt : ¬ (r.length > 2 * 1024 * 1024) := by omega
  simp [hgt, hnand, hzod, hrec, hw]

theorem submitUpdate_badsig (mac : String → String) (u r canonical sig : String)
    (b? : Option UpdateBody) (now : Nat) (st : Store)
    (hsize : r.length ≤ 2 * 1024 * 1024)
    (hbad : (validateHMAC mac r sig || validateHMAC mac canonical sig) = false) :
    submitUpdate mac (some u) (some r) canonical b? (some sig) now st =
      (.invalidSignature, st) := by
  unfold submitUpdate
  have h1 : validateHMAC mac r sig = false := (Bool.or_eq_false_iff.mp hbad).1
  have h2 : validateHMAC mac canonical sig = false := (Bool.or_eq_false_iff.mp hbad).2
  have hgt : ¬ (r.length > 2 * 1024 * 1024) := by omega
  simp [hgt, h1, h2]

theorem acceptStore_nonce_live (b : UpdateBody) (u : String) (t1 t2 : Nat) (st : Store)
    (hwin : t2 < t1 + 5 * 60000)
    (hfree : st.getLive (.nonce b.modelName b.siteId b.nonce) t1 = none) :
    (acceptStore b u t1 st).getLive (.nonce b.modelName b.siteId b.nonce) t2 =
      some (.raw "1", some (t1 + 5 * 60000)) := by
  unfold acceptStore Store.setPxNx
  rw [hfree]
  unfold Store.setex Store.eraseKey Store.getLive
  have hne : (KeyK.entry b.modelName EntryState.pending b.siteId t1 ==
      KeyK.nonce b.modelName b.siteId b.nonce) = false := by
    apply beq_eq_false_iff_ne.mpr
    intro h
    cases h
  simp [List.find?, StoreEntry.live, hwin, hne]

/-! ### Claim C1 -/

/-- a concrete stand-in for the keyed HMAC digest used in closed examples. -/
def exMac (s : String) : String := s ++ "-digest"

/-- a concrete zod-valid body for closed examples. -/
def exBody : UpdateBody :=
  ⟨"site-a", "m", [("a", [1])], 1, 1, 1000, "123e4567-e89b-12d3-a456-426614174000"⟩

/-- the empty store. -/
def emptyStore : Store := ⟨[], [], []⟩

/-- C1 counterexample: a submission whose signature verifies only over the
re-serialized JSON form (canonical) and NOT over the raw transport bytes is
accepted, not rejected: the handler tries the MAC over both encodings. Raw
bytes and canonical form differ by whitespace only, as a real re-encoding
would. -/
theorem c1_counterexample :
    validateHMAC exMac "sp 1" (exMac "sp1") = false ∧
      validateHMAC exMac "sp1" (exMac "sp1") = true ∧
      (submitUpdate exMac (some "dev") (some "sp 1") "sp1" (some exBody)
          (some (exMac "sp1")) 1000 emptyStore).1 =
        .uploaded (KeyK.entry "m" .pending "site-a" 1000) := by
  refine ⟨by with_unfolding_all rfl, by with_unfolding_all rfl, ?_⟩
  with_unfolding_all rfl

/-- C1 amended: the handler accepts a submission exactly when the keyed MAC in
the x-signature header verifies over the raw transport bytes OR over the
re-serialized JSON form of the payload (the other gates being passed); in
particular a signature valid only over the re-serialized form is accepted, the
dual-encoding verification flagged in the design notes. -/
theorem c1_amended_dual_mac
    (mac : String → String) (u r canonical sig : String) (b : UpdateBody)
    (st : Store) (now : Nat)
    (hsize : r.length ≤ 2 * 1024 * 1024)
    (hzod : zodValid b = true)
    (hrec : isRecentTimestamp now b.timestamp = true)
    (hfree : st.getLive (.nonce b.modelName b.siteId b.nonce) now = none) :
    ((submitUpdate mac (some u) (some r) canonical (some b) (some sig) now st).1 =
        .uploaded (KeyK.entry b.modelName .pending b.siteId now)) ↔
      (validateHMAC mac r sig || validateHMAC mac canonical sig) = true := by
  constructor
  · intro hres
    by_contra hng
    have hbad : (validateHMAC mac r sig || validateHMAC mac canonical sig) = false :=
      Bool.eq_false_iff.mpr hng
    rw [submitUpdate_badsig mac u r canonical sig (some b) now st hsize hbad] at hres
    cases hres
  · intro hgood
    rw [submitUpdate_accepts mac u r canonical sig b now st hsize hgood hzod hrec hfree]

/-- C1 amended witness: the acceptance characterization at a concrete input
whose signature verifies over the canonical form only. -/
theorem c1_amended_witness :
    ((submitUpdate exMac (some "dev") (some "sp 1") "sp1" (some exBody)
        (some (exMac "sp1")) 1000 emptyStore).1 =
      .uploaded (KeyK.entry exBody.modelName .pending exBody.siteId 1000)) ↔
      (validateHMAC exMac "sp 1" (exMac "sp1") ||
        validateHMAC exMac "sp1" (exMac "sp1")) = true := by
  exact c1_amended_dual_mac exMac "dev" "sp 1" "sp1" (exMac "sp1") exBody emptyStore 1000
    (by with_unfolding_all decide) (by with_unfolding_all decide)
    (by with_unfolding_all decide) (by with_unfolding_all rfl)

/-! ### Claim C2 -/

/-- C2: a valid signed update is accepted once; resubmitting the identical
payload and signature a second time at t2, while the nonce reservation for the
(modelName, siteId, nonce) triple is still within its 5-minute window, is
rejected with the replay reply (409), and the rejected submission changes
nothing in the store -- in particular it writes no second pending ledger
entry. The SET PX NX nonce reservation runs before the pending SETEX, so at
most one acceptance can happen per triple. -/
theorem c2_replay_second_submission_rejected
    (mac : String → String) (u r canonical sig : String) (b : UpdateBody)
    (st : Store) (t1 t2 : Nat)
    (hsig : validateHMAC mac r sig = true)
    (hsize : r.length ≤ 2 * 1024 * 1024)
    (hzod : zodValid b = true)
    (hrec1 : isRecentTimestamp t1 b.timestamp = true)
    (hrec2 : isRecentTimestamp t2 b.timestamp = true)
    (hfree : st.getLive (.nonce b.modelName b.siteId b.nonce) t1 = none)
    (hwin : t2 < t1 + 5 * 60000) :
    submitUpdate mac (some u) (some r) canonical (some b) (some sig) t1 st =
        (.uploaded (KeyK.entry b.modelName .pending b.siteId t1), acceptStore b u t1 st) ∧
      submitUpdate mac (some u) (some r) canonical (some b) (some sig) t2
          (acceptStore b u t1 st) =
        (.replay, acceptStore b u t1 st) := by
  have hgood : (validateHMAC mac r sig || validateHMAC mac canonical sig) = true := by
    rw [hsig]
    rfl
  refine ⟨submitUpdate_accepts mac u r canonical sig b t1 st hsize hgood hzod hrec1 hfree, ?_⟩
  apply submitUpdate_replay mac u r canonical sig b t2 _ hsize hgood hzod hrec2
  rw [acceptStore_nonce_live b u t1 t2 st hwin hfree]
  rfl

/-- C2 witness: the accept-then-replay theorem at a concrete body, store and
pair of submission times one second apart. -/
theorem c2_witness :
    submitUpdate exMac (some "dev") (some "raw-bytes") "raw-bytes" (some exBody)
        (some (exMac "raw-bytes")) 1000 emptyStore =
        (.uploaded (KeyK.entry exBody.modelName .pending exBody.siteId 1000),
          acceptStore exBody "dev" 1000 emptyStore) ∧
      submitUpdate exMac (some "dev") (some "raw-bytes") "raw-bytes" (some exBody)
          (some (exMac "raw-bytes")) 2000 (acceptStore exBody "dev" 1000 emptyStore) =
        (.replay, acceptStore exBody "dev" 1000 emptyStore) := by
  exact c2_replay_second_submission_rejected exMac "dev" "raw-bytes" "raw-bytes"
    (exMac "raw-bytes") exBody emptyStore 1000 2000
    (by with_unfolding_all rfl) (by with_unfolding_all decide)
    (by with_unfolding_all decide) (by with_unfolding_all decide)
    (by with_unfolding_all decide) (by with_unfolding_all rfl)
    (by with_unfolding_all decide)

/-! ## Version identifiers and the ModelVersioningService
(src/services/MetricsService.ts second half, dist/services/ModelVersioningService.js) -/

/-- the version identifier both commit paths build from the wall clock (the
v-dollar-brace-Date.now template literal). -/
def versionId (now : Nat) : String := "v" ++ toString now

/-- ModelVersioningService.saveModelVersion: registers the model name in the
global set, overwrites the latest pointer (plain SET, no expiry) with the data
plus the version field, pushes the version onto the history list and trims it
to ten -- note that no versioned record fl:models:(m):(version) is written. -/
def saveModelVersion (m : String) (modelData : ModelPayload) (now : Nat) (st : Store) :
    String × Store :=
  let version := versionId now
  let st1 := st.sadd .modelSet m
  let st2 := st1.setPlain (.modelLatest m) (.model { modelData with version := version })
  let st3 := (st2.lpush (.modelHistory m) version).ltrimTen (.modelHistory m)
  (version, st3)

/-- ModelVersioningService.getModelHistory. -/
def getModelHistory (st : Store) (m : String) : List String :=
  st.lrangeAll (.modelHistory m)

/-- ModelVersioningService.getModelVersion: reads the versioned key when an
explicit version is requested, the latest pointer otherwise; a missing key is
null. -/
def getModelVersion (st : Store) (m : String) (version : Option String) (now : Nat) :
    Option ModelPayload :=
  let key : KeyK := match version with
    | some v => .modelVersion m v
    | none => .modelLatest m
  match st.getLive key now with
  | some (Val.model p, _) => some p
  | _ => none

/-! ### Decimal rendering: Nat.repr is injective. The toDigitsCore fuel
recursion from core is related to a structurally recursive rendering first. -/

/-- structural model of the decimal rendering done by Nat.toDigitsCore. -/
def decDigits (n : Nat) : List Char :=
  if h : n / 10 = 0 then [Nat.digitChar (n % 10)]
  else decDigits (n / 10) ++ [Nat.digitChar (n % 10)]
decreasing_by
  simp_wf
  omega

theorem toDigitsCore_eq_decDigits :
    ∀ (fuel n : Nat) (ds : List Char), n < fuel →
      Nat.toDigitsCore 10 fuel n ds = decDigits n ++ ds := by
  intro fuel
  induction fuel with
  | zero =>
    intro n ds h
    omega
  | succ f ih =>
    intro n ds h
    by_cases h0 : n / 10 = 0
    · unfold decDigits
      rw [dif_pos h0]
      simp [Nat.toDigitsCore, h0]
    · have hlt : n / 10 < f := by
        have h2 : n / 10 < n := Nat.div_lt_self (by omega) (by omega)
        omega
      unfold decDigits
      rw [dif_neg h0]
      rw [show Nat.toDigitsCore 10 (f + 1) n ds =
          Nat.toDigitsCore 10 f (n / 10) (Nat.digitChar (n % 10) :: ds) from by
        simp [Nat.toDigitsCore, h0]]
      rw [ih _ _ hlt, List.append_assoc]
      rfl

theorem repr_data_eq_decDigits (n : Nat) : (Nat.repr n).data = decDigits n := by
  show (Nat.toDigits 10 n).asString.data = decDigits n
  unfold Nat.toDigits
  rw [toDigitsCore_eq_decDigits (n + 1) n [] (by omega)]
  simp [List.asString]

theorem digitChar_inj_fin :
    ∀ a b : Fin 10, Nat.digitChar a.val = Nat.digitChar b.val → a = b := by decide

theorem digitChar_inj_lt {a b : Nat} (ha : a < 10) (hb : b < 10)
    (h : Nat.digitChar a = Nat.digitChar b) : a = b := by
  have := digitChar_inj_fin ⟨a, ha⟩ ⟨b, hb⟩ h
  exact congrArg Fin.val this

theorem decDigits_pos {n : Nat} (h : n / 10 = 0) :
    decDigits n = [Nat.digitChar (n % 10)] := by
  rw [decDigits]
  exact dif_pos h

theorem decDigits_neg {n : Nat} (h : ¬ n / 10 = 0) :
    decDigits n = decDigits (n / 10) ++ [Nat.digitChar (n % 10)] := by
  rw [decDigits]
  exact dif_neg h

theorem decDigits_ne_nil (n : Nat) : decDigits n ≠ [] := by
  by_cases h : n / 10 = 0
  · rw [decDigits_pos h]
    simp
  · rw [decDigits_neg h]
    simp

theorem decDigits_inj : ∀ a b : Nat, decDigits a = decDigits b → a = b := by
  intro a
  induction a using Nat.strong_induction_on with
  | _ a ih =>
    intro b h
    by_cases ha : a / 10 = 0 <;> by_cases hb : b / 10 = 0
    · rw [decDigits_pos ha, decDigits_pos hb] at h
      injection h with h1 _
      have hm := digitChar_inj_lt (Nat.mod_lt _ (by omega)) (Nat.mod_lt _ (by omega)) h1
      omega
    · rw [decDigits_pos ha, decDigits_neg hb] at h
      have hl := congrArg List.length h
      rw [List.length_append, List.length_singleton, List.length_singleton] at hl
      have hp : 0 < (decDigits (b / 10)).length :=
        List.length_pos.mpr (decDigits_ne_nil _)
      omega
    · rw [decDigits_neg ha, decDigits_pos hb] at h
      have hl := congrArg List.length h
      rw [List.length_append, List.length_singleton, List.length_singleton] at hl
      have hp : 0 < (decDigits (a / 10)).length :=
        List.length_pos.mpr (decDigits_ne_nil _)
      omega
    · rw [decDigits_neg ha, decDigits_neg hb] at h
      obtain ⟨h1, h2⟩ := List.append_inj' h (by rfl)
      have hda : a / 10 < a := Nat.div_lt_self (by omega) (by omega)
      have hd := ih (a / 10) hda (b / 10) h1
      injection h2 with h3 _
      have hm := digitChar_inj_lt (Nat.mod_lt _ (by omega)) (Nat.mod_lt _ (by omega)) h3
      omega

theorem versionId_inj {a b : Nat} (h : versionId a = versionId b) : a = b := by
  unfold versionId at h
  have hd := congrArg String.data h
  rw [String.data_append, String.data_append] at hd
  have hs : (toString a).data = (toString b).data := List.append_cancel_left hd
  have ha : (toString a).data = decDigits a := repr_data_eq_decDigits a
  have hb : (toString b).data = decDigits b := repr_data_eq_decDigits b
  exact decDigits_inj a b (ha ▸ hb ▸ hs)

/-! ### Claim C4 -/

/-- concrete model data for the C4/C5 closed theorems. -/
def exModelData : ModelPayload := ⟨"m", [("a", [1])], ["site-a"], 0, 1, 0, ""⟩

/-- C4: the claim fails on ModelVersioningService. saveModelVersion writes the
latest pointer and pushes the history entry, but writes NO versioned record,
so reading the model back with the very versionId the commit just returned
yields absent (null) -- even though the id now sits in the history list and
the latest pointer holds the data. -/
theorem c4_versioned_record_never_written :
    (saveModelVersion "m" exModelData 1000 emptyStore).1 = versionId 1000 ∧
      getModelVersion (saveModelVersion "m" exModelData 1000 emptyStore).2 "m"
          (some (versionId 1000)) 1000 = none ∧
      getModelVersion (saveModelVersion "m" exModelData 1000 emptyStore).2 "m"
          none 1000 = some { exModelData with version := versionId 1000 } ∧
      getModelHistory (saveModelVersion "m" exModelData 1000 emptyStore).2 "m" =
        [versionId 1000] := by
  refine ⟨rfl, ?_, ?_, ?_⟩ <;> with_unfolding_all rfl

/-! ### Claim C5 -/

/-- C5 counterexample: two commits at the same wall-clock millisecond return
the same version id -- the later commit does not return a strictly greater
identifier, because the id is the v-prefixed rendering of Date.now(). -/
theorem c5_counterexample :
    (saveModelVersion "m" exModelData 1700000000000 emptyStore).1 =
      (saveModelVersion "m" exModelData 1700000000000
        (saveModelVersion "m" exModelData 1700000000000 emptyStore).2).1 := rfl

/-- C5 amended: the version id returned by commit is the decimal rendering of
the commit-time milliseconds, so two commits receive the same id exactly when
their wall-clock milliseconds coincide; ids are distinct (and ordered by the
embedded timestamp) only while the wall clock strictly increases between
commits, and nothing enforces that under same-millisecond commits or backward
clock adjustment. -/
theorem c5_amended_version_id_collision (m1 m2 : String) (d1 d2 : ModelPayload)
    (st1 st2 : Store) (t1 t2 : Nat) :
    (saveModelVersion m1 d1 t1 st1).1 = (saveModelVersion m2 d2 t2 st2).1 ↔ t1 = t2 := by
  constructor
  · intro h
    exact versionId_inj h
  · intro h
    rw [h]
    rfl

/-! ## aggregateNow (src/plugins/swagger.ts) and the DatabaseService helpers -/

/-- the structural rendering of key.replace between the state namespaces.
String.replace with a string pattern replaces only the FIRST occurrence; on a
benign model name (benignModelName below) the first occurrence of the state
pattern in a well-formed entry key is the state segment, so the replace is
exactly this retag (promote_replace_models_retag, revert_replace_models_retag).
On other, zod-reachable names the replace instead corrupts the key inside the
hash tag (c3_counterexample). -/
def retagKey : KeyK → EntryState → KeyK
  | .entry m _ site ts, s => .entry m s site ts
  | k, _ => k

/-- DatabaseService.getFLUpdates: scan the per-model namespace with the MATCH
pattern fl:(tag m):(state):(m):*, GET each key, JSON.parse, and drop entries
whose payload is missing or does not parse as an update document. The scan
never reports expired keys. Braces and colons are literal in a MATCH glob, so
for a model name without glob metacharacters (benignModelName below) the
pattern is a literal prefix that selects exactly the structural (model, state)
family modelled here; getFLUpdatesS below is the string-level rendering. -/
def getFLUpdates (st : Store) (m : String) (state : EntryState) (now : Nat) :
    List (KeyK × UpdateDoc) :=
  st.kv.filterMap (fun e =>
    match e.key with
    | .entry m' s _ _ =>
      if m' == m && s == state && e.live now then
        match e.val with
        | .update d => some (e.key, d)
        | _ => none
      else none
    | _ => none)

/-- one pipelined batch of RENAMEs, applied in order. -/
def moveAll (st : Store) (pairs : List (KeyK × KeyK)) (now : Nat) : Store :=
  pairs.foldl (fun s p => s.rename p.1 p.2 now) st

/-- DatabaseService.markPendingToProcessing: rename every parsed pending entry
to key.replace(:pending:, :processing:) and return the new keys. The retagKey
rendering of the replace is faithful on benign model names only (see retagKey
and markPendingToProcessingS). -/
def markPendingToProcessing (st : Store) (m : String) (now : Nat) :
    List KeyK × Store :=
  let pending := getFLUpdates st m .pending now
  (pending.map (fun p => retagKey p.1 .processing),
   moveAll st (pending.map (fun p => (p.1, retagKey p.1 .processing))) now)

/-- the reply of POST /api/v1/fl/aggregate-now (the moved list is only present
on the insufficient-participants reply in the source; carrying it always loses
nothing). -/
structure AggOutcome where
  aggregated : Bool
  reason : Option String
  participants : Nat
  version : Option String
  moved : List KeyK
deriving DecidableEq, Repr

/-- RitaServer.aggregateNow: promote pending entries, fetch the processing
entries, revert them all to pending when fewer than minParticipants parsed
(reporting not_enough_participants), otherwise aggregate, write the versioned
record (7-day TTL) and the latest pointer (1-day TTL), push and trim the
history, and delete the consumed processing entries. none models the uncaught
throw of the aggregator on an empty batch (only reachable when minP = 0). -/
def aggregateNow (m : String) (minP : Nat) (now : Nat) (st : Store) :
    Option (AggOutcome × Store) :=
  let step1 := markPendingToProcessing st m now
  let st1 := step1.2
  let updates := getFLUpdates st1 m .processing now
  if updates.length < minP then
    let st2 := moveAll st1 (updates.map (fun p => (p.1, retagKey p.1 .pending))) now
    some ({ aggregated := false, reason := some "not_enough_participants",
            participants := updates.length, version := none, moved := step1.1 }, st2)
  else
    match performAggregation (updates.map (fun p => p.2)) with
    | none => none
    | some result =>
      let version := versionId now
      let payload : ModelPayload :=
        ⟨m, result.weights, result.participants, now, result.participantCount, 0, version⟩
      let st2 := st1.setex (.modelVersion m version) (7 * 24 * 3600) (.model payload) now
      let st3 := st2.setex (.modelLatest m) (24 * 3600) (.model payload) now
      let st4 := (st3.lpush (.modelHistory m) version).ltrimTen (.modelHistory m)
      let st5 := updates.foldl (fun s p => s.del p.1) st4
      some ({ aggregated := true, reason := none, participants := updates.length,
              version := some version, moved := step1.1 }, st5)

/-! ### Claim C7 -/

/-- per-element closeness of two vectors, the tolerance check of the spec
scenario. -/
def withinTol (xs ys : List ℚ) (eps : ℚ) : Bool :=
  xs.length == ys.length &&
    (List.zip xs ys).all (fun p => decide (|p.1 - p.2| ≤ eps))

/-- an upload body of the C7 scenario. -/
def c7body (site : String) (ds : ℚ) (l0 : List ℚ) : UpdateBody :=
  ⟨site, "mnist", [("layer0", l0)], ds, 1, 1000, "123e4567-e89b-12d3-a456-426614174000"⟩

/-- the ledger holding the three pending updates of the C7 scenario
(decimal weights written as exact rationals). -/
def c7store : Store :=
  ⟨[⟨.entry "mnist" .pending "siteA" 1,
      .update ⟨c7body "siteA" 120 [1, -2/5, 3/10, 4/5], 1, "dev"⟩, some 999999⟩,
    ⟨.entry "mnist" .pending "siteB" 2,
      .update ⟨c7body "siteB" 150 [6/5, -3/5, 1/10, 7/10], 2, "dev"⟩, some 999999⟩,
    ⟨.entry "mnist" .pending "siteC" 3,
      .update ⟨c7body "siteC" 100 [9/10, -1/2, 1/5, 9/10], 3, "dev"⟩, some 999999⟩],
   [], []⟩

/-- C7 counterexample: on the exact scenario of the claim the aggregation does
report aggregated true with participants 3, but layer0 comes out as
[39/37, -94/185, 71/370, 291/370], approximately [1.0541, -0.5081, 0.1919,
0.7865], which is NOT within 1e-3 of the claimed [1.051, -0.503, 0.208,
0.792] (the third coordinate alone is off by about 0.016). -/
theorem c7_counterexample :
    (aggregateNow "mnist" 3 100 c7store).map (fun r => r.1.aggregated) = some true ∧
      (aggregateNow "mnist" 3 100 c7store).map (fun r => r.1.participants) = some 3 ∧
      (aggregateNow "mnist" 3 100 c7store).bind
          (fun r => (getModelVersion r.2 "mnist" none 100).map
            (fun p => p.weights.lookup "layer0")) =
        some (some [39/37, -94/185, 71/370, 291/370]) ∧
      withinTol [39/37, -94/185, 71/370, 291/370]
        [1051/1000, -503/1000, 208/1000, 792/1000] (1/1000) = false := by
  refine ⟨?_, ?_, ?_, ?_⟩ <;> with_unfolding_all rfl

/-- C7 amended: the same scenario with the expected vector corrected to the
weighted mean the algorithm actually produces, [1.054, -0.508, 0.192, 0.786]
within the same 1e-3 tolerance (exactly [39/37, -94/185, 71/370, 291/370]). -/
theorem c7_amended_scenario :
    (aggregateNow "mnist" 3 100 c7store).map (fun r => r.1.aggregated) = some true ∧
      (aggregateNow "mnist" 3 100 c7store).map (fun r => r.1.participants) = some 3 ∧
      (aggregateNow "mnist" 3 100 c7store).bind
          (fun r => (getModelVersion r.2 "mnist" none 100).map
            (fun p => p.weights.lookup "layer0")) =
        some (some [39/37, -94/185, 71/370, 291/370]) ∧
      withinTol [39/37, -94/185, 71/370, 291/370]
        [1054/1000, -508/1000, 192/1000, 786/1000] (1/1000) = true := by
  refine ⟨?_, ?_, ?_, ?_⟩ <;> with_unfolding_all rfl

/-! ### Store lemmas for the promotion and revert folds -/

theorem find?_filter_of_imp {α : Type} (l : List α) (p q : α → Bool)
    (h : ∀ e, p e = true → q e = true) : (l.filter q).find? p = l.find? p := by
  induction l with
  | nil => rfl
  | cons hd tl ih =>
    cases hq : q hd
    · have hp : ¬ (p hd = true) := by
        intro hp
        rw [h hd hp] at hq
        cases hq
      rw [List.filter_cons_of_neg (by simp [hq]), ih,
        List.find?_cons_of_neg _ hp]
    · rw [List.filter_cons_of_pos (by simp [hq])]
      cases hp : p hd
      · rw [List.find?_cons_of_neg _ (by simp [hp]),
          List.find?_cons_of_neg _ (by simp [hp]), ih]
      · rw [List.find?_cons_of_pos _ (by simp [hp]),
          List.find?_cons_of_pos _ (by simp [hp])]

theorem find?_key_of_mem {l : List StoreEntry} {e : StoreEntry} {now : Nat}
    (hnd : (l.map (fun x => x.key)).Nodup) (hmem : e ∈ l) (hlive : e.live now = true) :
    l.find? (fun x => x.key == e.key && x.live now) = some e := by
  induction l with
  | nil => cases hmem
  | cons hd tl ih =>
    rw [List.map_cons, List.nodup_cons] at hnd
    obtain ⟨hk, hnd⟩ := hnd
    rcases List.mem_cons.mp hmem with rfl | hm
    · exact List.find?_cons_of_pos _ (by simp [hlive])
    · have hne : hd.key ≠ e.key := by
        intro he
        exact hk (he ▸ List.mem_map.mpr ⟨e, hm, rfl⟩)
      rw [List.find?_cons_of_neg _ (by simp [beq_false_of_ne hne])]
      exact ih hnd hm

theorem getLive_of_mem {st : Store} {e : StoreEntry} {now : Nat} (hwf : st.Wf)
    (hmem : e ∈ st.kv) (hlive : e.live now = true) :
    st.getLive e.key now = some (e.val, e.exp) := by
  unfold Store.getLive
  rw [find?_key_of_mem hwf hmem hlive]
  rfl

theorem getLive_elim {st : Store} {k : KeyK} {now : Nat} {v : Val} {x : Option Nat}
    (h : st.getLive k now = some (v, x)) :
    ∃ e ∈ st.kv, e.key = k ∧ e.val = v ∧ e.exp = x ∧ e.live now = true := by
  unfold Store.getLive at h
  rcases ho : st.kv.find? (fun e => e.key == k && e.live now) with _ | e
  · rw [ho] at h
    cases h
  · rw [ho] at h
    have hp := List.find?_some ho
    have hm := List.mem_of_find?_eq_some ho
    simp only [Bool.and_eq_true, beq_iff_eq] at hp
    injection h with h2
    refine ⟨e, hm, hp.1, ?_, ?_, hp.2⟩
    · exact congrArg Prod.fst h2
    · exact congrArg Prod.snd h2

theorem rename_getLive_other {st : Store} {src dst k : KeyK} {now : Nat}
    (h1 : k ≠ src) (h2 : k ≠ dst) :
    (st.rename src dst now).getLive k now = st.getLive k now := by
  unfold Store.rename
  rcases ho : st.getLive src now with _ | w
  · simp only [ho]
  · obtain ⟨v, x⟩ := w
    simp only [ho]
    unfold Store.getLive Store.eraseKey
    dsimp only
    rw [List.find?_cons_of_neg _ (by simp [beq_false_of_ne (Ne.symm h2)])]
    have himp1 : ∀ e : StoreEntry, (e.key == k && e.live now) = true →
        (e.key != dst) = true := by
      intro e he
      simp only [Bool.and_eq_true, beq_iff_eq] at he
      simp [he.1, h2]
    have himp2 : ∀ e : StoreEntry, (e.key == k && e.live now) = true →
        (e.key != src) = true := by
      intro e he
      simp only [Bool.and_eq_true, beq_iff_eq] at he
      simp [he.1, h1]
    rw [find?_filter_of_imp _ _ _ himp1, find?_filter_of_imp _ _ _ himp2]

theorem rename_getLive_dst {st : Store} {src dst : KeyK} {now : Nat} {w : Val × Option Nat}
    (h : st.getLive src now = some w) :
    (st.rename src dst now).getLive dst now = some w := by
  obtain ⟨v, x⟩ := w
  obtain ⟨e, _, hek, hev, hee, hel⟩ := getLive_elim h
  unfold Store.rename
  simp only [h]
  unfold Store.getLive
  dsimp only
  rw [List.find?_cons_of_pos _ (by
    simp only [Bool.and_eq_true, beq_self_eq_true, true_and]
    show StoreEntry.live ⟨dst, v, x⟩ now = true
    unfold StoreEntry.live
    rw [← hee]
    exact hel)]
  rfl

theorem rename_getLive_src_none {st : Store} {src dst : KeyK} {now : Nat}
    (hne : src ≠ dst) :
    (st.rename src dst now).getLive src now = none := by
  unfold Store.rename
  rcases ho : st.getLive src now with _ | w
  · simp only [ho]
  · obtain ⟨v, x⟩ := w
    simp only [ho]
    unfold Store.getLive Store.eraseKey
    dsimp only
    rw [List.find?_cons_of_neg _ (by simp [beq_false_of_ne (Ne.symm hne)])]
    have hnone : (List.filter (fun e => e.key != dst)
        (List.filter (fun e => e.key != src) st.kv)).find?
          (fun e => e.key == src && e.live now) = none := by
      rw [List.find?_eq_none]
      intro y hy
      have hy1 := List.mem_of_mem_filter hy
      have hy2 := List.of_mem_filter hy1
      simp only [bne_iff_ne, ne_eq] at hy2
      simp [hy2]
    rw [hnone]
    rfl

theorem rename_wf {st : Store} {src dst : KeyK} {now : Nat} (hwf : st.Wf) :
    (st.rename src dst now).Wf := by
  unfold Store.rename
  rcases ho : st.getLive src now with _ | w
  · simp only [ho]
    exact hwf
  · obtain ⟨v, x⟩ := w
    simp only [ho]
    unfold Store.Wf Store.eraseKey at *
    dsimp only
    rw [List.map_cons, List.nodup_cons]
    constructor
    · intro hmem
      obtain ⟨e, he, hek⟩ := List.mem_map.mp hmem
      have hne := List.of_mem_filter he
      simp only [bne_iff_ne, ne_eq] at hne
      exact hne hek
    · have hsub : ((List.filter (fun e => e.key != dst)
          (List.filter (fun e => e.key != src) st.kv)).map (fun e => e.key)).Sublist
            (st.kv.map (fun e => e.key)) :=
        ((List.filter_sublist _).trans (List.filter_sublist _)).map _
      exact hwf.sublist hsub

theorem rename_lists {st : Store} {src dst : KeyK} {now : Nat} :
    (st.rename src dst now).lists = st.lists := by
  unfold Store.rename
  rcases ho : st.getLive src now with _ | w
  · simp only [ho]
  · obtain ⟨v, x⟩ := w
    simp only [ho]

/-! ### moveAll lemmas -/

theorem moveAll_getLive_other {st : Store} {ps : List (KeyK × KeyK)} {k : KeyK} {now : Nat}
    (hk : ∀ p ∈ ps, k ≠ p.1 ∧ k ≠ p.2) :
    (moveAll st ps now).getLive k now = st.getLive k now := by
  induction ps generalizing st with
  | nil => rfl
  | cons hd tl ih =>
    have hhd := hk hd (by simp)
    show (moveAll (st.rename hd.1 hd.2 now) tl now).getLive k now = _
    rw [ih (fun p hp => hk p (List.mem_cons_of_mem _ hp)),
      rename_getLive_other hhd.1 hhd.2]

theorem moveAll_lists {st : Store} {ps : List (KeyK × KeyK)} {now : Nat} :
    (moveAll st ps now).lists = st.lists := by
  induction ps generalizing st with
  | nil => rfl
  | cons hd tl ih =>
    show (moveAll (st.rename hd.1 hd.2 now) tl now).lists = _
    rw [ih, rename_lists]

theorem moveAll_wf {st : Store} {ps : List (KeyK × KeyK)} {now : Nat} (hwf : st.Wf) :
    (moveAll st ps now).Wf := by
  induction ps generalizing st with
  | nil => exact hwf
  | cons hd tl ih =>
    show (moveAll (st.rename hd.1 hd.2 now) tl now).Wf
    exact ih (rename_wf hwf)

theorem moveAll_getLive_pair {st : Store} {ps : List (KeyK × KeyK)} {now : Nat}
    (hsrc : (ps.map Prod.fst).Nodup) (hdst : (ps.map Prod.snd).Nodup)
    (hdisj : ∀ p ∈ ps, ∀ q ∈ ps, p.1 ≠ q.2)
    (hlive : ∀ p ∈ ps, (st.getLive p.1 now).isSome = true) :
    ∀ a b, (a, b) ∈ ps → (moveAll st ps now).getLive b now = st.getLive a now := by
  induction ps generalizing st with
  | nil =>
    intro a b hm
    cases hm
  | cons hd tl ih =>
    intro a b hm
    obtain ⟨a1, b1⟩ := hd
    rw [List.map_cons, List.nodup_cons] at hsrc hdst
    obtain ⟨hs1, hsrc⟩ := hsrc
    obtain ⟨hd1, hdst⟩ := hdst
    rcases List.mem_cons.mp hm with he | hmtl
    · injection he with ha hb
      subst ha
      subst hb
      obtain ⟨w, hw⟩ := Option.isSome_iff_exists.mp (hlive (a, b) (by simp))
      show (moveAll (st.rename a b now) tl now).getLive b now = _
      have hother : ∀ p ∈ tl, b ≠ p.1 ∧ b ≠ p.2 := by
        intro p hp
        constructor
        · intro he2
          exact hdisj p (List.mem_cons_of_mem _ hp) (a, b) (by simp) he2.symm
        · intro he2
          exact hd1 (List.mem_map.mpr ⟨p, hp, he2.symm⟩)
      rw [moveAll_getLive_other hother, rename_getLive_dst hw, hw]
    · show (moveAll (st.rename a1 b1 now) tl now).getLive b now = _
      have hsrcne : a ≠ a1 := by
        intro he2
        exact hs1 (List.mem_map.mpr ⟨(a, b), hmtl, he2⟩)
      have hdstne : a ≠ b1 := hdisj (a, b) (List.mem_cons_of_mem _ hmtl) (a1, b1) (by simp)
      have hlive2 : ∀ p ∈ tl, ((st.rename a1 b1 now).getLive p.1 now).isSome = true := by
        intro p hp
        have hps : p.1 ≠ a1 := by
          intro he2
          exact hs1 (List.mem_map.mpr ⟨p, hp, he2⟩)
        have hpd : p.1 ≠ b1 := hdisj p (List.mem_cons_of_mem _ hp) (a1, b1) (by simp)
        rw [rename_getLive_other hps hpd]
        exact hlive p (List.mem_cons_of_mem _ hp)
      rw [ih hsrc hdst (fun p hp q hq =>
          hdisj p (List.mem_cons_of_mem _ hp) q (List.mem_cons_of_mem _ hq)) hlive2 a b hmtl,
        rename_getLive_other hsrcne hdstne]

/-! ### scan characterization -/

theorem retag_entry (m : String) (s s' : EntryState) (site : String) (ts : Nat) :
    retagKey (.entry m s site ts) s' = .entry m s' site ts := rfl

theorem getFLUpdates_mem_iff {st : Store} {m : String} {s : EntryState} {now : Nat}
    (hwf : st.Wf) {k : KeyK} {d : UpdateDoc} :
    (k, d) ∈ getFLUpdates st m s now ↔
      (∃ site ts, k = .entry m s site ts) ∧
        ∃ x, st.getLive k now = some (.update d, x) := by
  constructor
  · intro hmem
    obtain ⟨e, he, hfe⟩ := List.mem_filterMap.mp hmem
    obtain ⟨ek, ev, ee⟩ := e
    cases ek with
    | entry m' s2 site ts =>
      dsimp only [getFLUpdates] at hfe
      rcases hcond : (m' == m && s2 == s &&
          StoreEntry.live ⟨KeyK.entry m' s2 site ts, ev, ee⟩ now) with _ | _
      · rw [hcond] at hfe
        simp at hfe
      · rw [hcond] at hfe
        simp only [if_true] at hfe
        cases ev with
        | update d2 =>
          simp only [Option.some.injEq, Prod.mk.injEq] at hfe
          obtain ⟨hk, hd⟩ := hfe
          simp only [Bool.and_eq_true, beq_iff_eq] at hcond
          obtain ⟨⟨hm, hs⟩, hlive⟩ := hcond
          subst hm
          subst hs
          subst hd
          refine ⟨⟨site, ts, hk.symm⟩, ee, ?_⟩
          rw [← hk]
          exact getLive_of_mem hwf he hlive
        | raw s3 => simp at hfe
        | model p => simp at hfe
    | nonce a b c => simp [getFLUpdates] at hfe
    | modelVersion a b => simp [getFLUpdates] at hfe
    | modelLatest a => simp [getFLUpdates] at hfe
    | modelHistory a => simp [getFLUpdates] at hfe
    | modelSet => simp [getFLUpdates] at hfe
  · rintro ⟨⟨site, ts, rfl⟩, x, hget⟩
    obtain ⟨e, he, hek, hev, hee, hlive⟩ := getLive_elim hget
    apply List.mem_filterMap.mpr
    refine ⟨e, he, ?_⟩
    obtain ⟨ek, ev, ee⟩ := e
    dsimp only at hek hev hee
    subst hek
    subst hev
    subst hee
    dsimp only [getFLUpdates]
    rw [if_pos (by simp [hlive])]

theorem filterMap_fst_sublist {l : List StoreEntry}
    {f : StoreEntry → Option (KeyK × UpdateDoc)}
    (hf : ∀ e p, f e = some p → p.1 = e.key) :
    ((l.filterMap f).map Prod.fst).Sublist (l.map (fun e => e.key)) := by
  induction l with
  | nil => simp
  | cons hd tl ih =>
    rw [List.filterMap_cons, List.map_cons]
    cases hfe : f hd
    · exact ih.cons _
    · rename_i p
      rw [List.map_cons, hf hd p hfe]
      exact ih.cons₂ _

theorem getFLUpdates_hf (m : String) (s : EntryState) (now : Nat) :
    ∀ (e : StoreEntry) (p : KeyK × UpdateDoc),
      (fun e : StoreEntry =>
        match e.key with
        | .entry m' s2 _ _ =>
          if m' == m && s2 == s && e.live now then
            match e.val with
            | .update d => some (e.key, d)
            | _ => none
          else none
        | _ => none) e = some p → p.1 = e.key := by
  intro e p hfe
  obtain ⟨ek, ev, ee⟩ := e
  cases ek <;> simp_all
  obtain ⟨hc, hmatch⟩ := hfe
  cases ev <;> simp_all
  rw [← hmatch]

theorem getFLUpdates_keys_nodup {st : Store} {m : String} {s : EntryState} {now : Nat}
    (hwf : st.Wf) : ((getFLUpdates st m s now).map Prod.fst).Nodup :=
  hwf.sublist (filterMap_fst_sublist (getFLUpdates_hf m s now))

theorem retag_keys_nodup {ks : List (KeyK × UpdateDoc)} {m : String} {s s' : EntryState}
    (hshape : ∀ p ∈ ks, ∃ site ts, p.1 = KeyK.entry m s site ts)
    (hnd : (ks.map Prod.fst).Nodup) :
    (ks.map (fun p => retagKey p.1 s')).Nodup := by
  have hmm : ks.map (fun p => retagKey p.1 s') =
      (ks.map Prod.fst).map (fun k => retagKey k s') := by
    rw [List.map_map]
    rfl
  rw [hmm]
  apply hnd.map_on
  intro x hx y hy hxy
  obtain ⟨p, hp, hpx⟩ := List.mem_map.mp hx
  obtain ⟨q, hq, hqy⟩ := List.mem_map.mp hy
  obtain ⟨sitep, tsp, hps⟩ := hshape p hp
  obtain ⟨siteq, tsq, hqs⟩ := hshape q hq
  rw [← hpx, ← hqy, hps, hqs] at hxy ⊢
  rw [retag_entry, retag_entry] at hxy
  injection hxy with e1 e2 e3 e4
  subst e3
  subst e4
  rfl

/-! ### Keys as strings: JS String.replace and the MATCH scan -/

/-- whether pat is a character-exact prefix of the list. -/
def listStartsWith : List Char → List Char → Bool
  | [], _ => true
  | _ :: _, [] => false
  | p :: ps, c :: cs => p == c && listStartsWith ps cs

/-- whether pat occurs as a contiguous substring (String.includes). -/
def containsSub : List Char → List Char → Bool
  | [], pat => pat.isEmpty
  | c :: tl, pat => listStartsWith pat (c :: tl) || containsSub tl pat

/-- JS String.prototype.replace with a string pattern: only the FIRST
occurrence, found scanning left to right, is replaced; with no occurrence the
string is returned unchanged. (The patterns the code passes are nonempty.) -/
def replaceFirstAux (pat rep : List Char) : List Char → List Char
  | [] => []
  | c :: cs =>
    if listStartsWith pat (c :: cs) then rep ++ (c :: cs).drop pat.length
    else c :: replaceFirstAux pat rep cs

/-- key.replace(pat, rep) on strings. -/
def replaceFirst (s pat rep : String) : String :=
  (replaceFirstAux pat.toList rep.toList s.toList).asString

/-- the string template of an entry key,
fl:(tag model):(state):(model):(site):(ts) with the hash-tag braces written
escaped. -/
def flKey (m state site tsStr : String) : String :=
  "fl:\x7b" ++ m ++ "\x7d" ++ (":" ++ state ++ ":") ++ m ++ ":" ++ site ++ ":" ++ tsStr

/-- the state segment of an entry key. -/
def stateName : EntryState → String
  | .pending => "pending"
  | .processing => "processing"

/-- the string encoding behind every structural key. -/
def keyStr : KeyK → String
  | .nonce m site n => "fl:\x7b" ++ m ++ "\x7d" ++ ":nonce:" ++ site ++ ":" ++ n
  | .entry m s site ts => flKey m (stateName s) site (toString ts)
  | .modelVersion m v => "fl:models:" ++ m ++ ":" ++ v
  | .modelLatest m => "fl:models:" ++ m ++ ":latest"
  | .modelHistory m => "fl:models:" ++ m ++ ":history"
  | .modelSet => "fl:models:set"

/-- the characters special to the Redis MATCH glob (plus its escape). -/
def isGlobChar (c : Char) : Bool :=
  c == '*' || c == '?' || c == '[' || c == ']' || c == '\\'

/-- a model name is benign when it contains neither state segment as a
substring and no MATCH metacharacter. zod bounds modelName only in length
(1..100), so non-benign names are reachable. -/
def benignModelName (m : String) : Bool :=
  !containsSub m.toList ":pending:".toList &&
    !containsSub m.toList ":processing:".toList &&
      m.toList.all (fun c => !isGlobChar c)

theorem listStartsWith_append (pat ys : List Char) :
    listStartsWith pat (pat ++ ys) = true := by
  induction pat with
  | nil => rfl
  | cons p ps ih => simp [listStartsWith, ih]

theorem listStartsWith_get {pat l : List Char}
    (h : listStartsWith pat l = true) :
    ∀ i, i < pat.length → l.get? i = pat.get? i := by
  induction pat generalizing l with
  | nil => intro i hi; simp at hi
  | cons p ps ih =>
    cases l with
    | nil => simp [listStartsWith] at h
    | cons c cs =>
      simp only [listStartsWith, Bool.and_eq_true, beq_iff_eq] at h
      obtain ⟨rfl, h2⟩ := h
      intro i hi
      cases i with
      | zero => rfl
      | succ j =>
        simp only [List.get?_cons_succ]
        exact ih h2 j (by simpa using hi)

theorem listStartsWith_of_append {pat a : List Char} (b : List Char)
    (h : listStartsWith pat (a ++ b) = true) (hlen : pat.length ≤ a.length) :
    listStartsWith pat a = true := by
  induction pat generalizing a with
  | nil => rfl
  | cons p ps ih =>
    cases a with
    | nil => simp at hlen
    | cons x xs =>
      simp only [List.cons_append, listStartsWith, Bool.and_eq_true] at h ⊢
      exact ⟨h.1, ih h.2 (by simpa using hlen)⟩

theorem containsSub_of_drop {md pat : List Char} :
    ∀ k, k ≤ md.length → listStartsWith pat (md.drop k) = true →
      containsSub md pat = true := by
  induction md with
  | nil =>
    intro k hk h
    cases pat with
    | nil => rfl
    | cons p ps =>
      rw [List.drop_nil] at h
      simp [listStartsWith] at h
  | cons c cs ih =>
    intro k hk h
    cases k with
    | zero =>
      rw [List.drop_zero] at h
      simp [containsSub, h]
    | succ k2 =>
      rw [List.drop_succ_cons] at h
      simp [containsSub, ih k2 (by simpa using hk) h]

theorem replaceFirstAux_head (pat rep ys : List Char) (hne : pat ≠ []) :
    replaceFirstAux pat rep (pat ++ ys) = rep ++ ys := by
  cases pat with
  | nil => exact absurd rfl hne
  | cons p ps =>
    have hsw : listStartsWith (p :: ps) ((p :: ps) ++ ys) = true :=
      listStartsWith_append (p :: ps) ys
    rw [List.cons_append] at hsw ⊢
    simp only [replaceFirstAux, hsw, if_true]
    rw [← List.cons_append, List.drop_left]

theorem replaceFirstAux_middle (pat rep ys : List Char) (hne : pat ≠ []) :
    ∀ xs, (∀ n, n < xs.length → listStartsWith pat ((xs ++ (pat ++ ys)).drop n) = false) →
      replaceFirstAux pat rep (xs ++ (pat ++ ys)) = xs ++ (rep ++ ys) := by
  intro xs
  induction xs with
  | nil =>
    intro _
    simp only [List.nil_append]
    exact replaceFirstAux_head pat rep ys hne
  | cons c xs2 ih =>
    intro hno
    have h0 : listStartsWith pat (c :: (xs2 ++ (pat ++ ys))) = false := by
      have := hno 0 (by simp)
      simpa using this
    rw [List.cons_append, List.cons_append]
    simp only [replaceFirstAux, h0, Bool.false_eq_true, if_false]
    rw [ih (fun n hn => by
      have := hno (n + 1) (by simp only [List.length_cons]; omega)
      rw [List.cons_append, List.drop_succ_cons] at this
      exact this)]

theorem state_no_early_occurrence (mt pat ys : List Char)
    (hpat : pat.all (fun c => !(c == '\x7b' || c == '\x7d')) = true)
    (hlen : 4 ≤ pat.length)
    (hm : containsSub mt pat = false) :
    ∀ n, n < ((['f', 'l', ':', '\x7b'] ++ mt ++ ['\x7d']) : List Char).length →
      listStartsWith pat
        (((['f', 'l', ':', '\x7b'] ++ mt ++ ['\x7d']) ++ (pat ++ ys)).drop n) = false := by
  intro n hn
  by_contra hcon
  rw [Bool.not_eq_false] at hcon
  have hget := listStartsWith_get hcon
  simp only [List.length_append, List.length_cons, List.length_nil] at hn
  have hnobrace : ∀ i, i < pat.length →
      pat.get? i ≠ some '\x7b' ∧ pat.get? i ≠ some '\x7d' := by
    intro i hi
    constructor <;> intro hcontra <;>
      · have hmem := List.get?_mem hcontra
        have := List.all_eq_true.mp hpat _ hmem
        simp at this
  have hgetfull : ∀ i, i < pat.length →
      (((['f', 'l', ':', '\x7b'] ++ mt ++ ['\x7d']) ++ (pat ++ ys)) : List Char).get? (n + i)
        = pat.get? i := by
    intro i hi
    have := hget i hi
    rw [List.get?_drop] at this
    exact this
  by_cases h3 : n ≤ 3
  · have hi : 3 - n < pat.length := by omega
    have h := hgetfull (3 - n) hi
    rw [show n + (3 - n) = 3 from by omega] at h
    rw [List.get?_append (by simp <;> omega)] at h
    rw [List.get?_append (by simp <;> omega)] at h
    rw [List.get?_append (by simp)] at h
    exact (hnobrace _ hi).1 h.symm
  · push_neg at h3
    by_cases hwin : n + pat.length ≤ 4 + mt.length
    · have hassoc : (((['f', 'l', ':', '\x7b'] ++ mt ++ ['\x7d']) ++ (pat ++ ys)) : List Char)
          = (['f', 'l', ':', '\x7b'] : List Char) ++ (mt ++ (['\x7d'] ++ (pat ++ ys))) := by
        simp [List.append_assoc]
      rw [hassoc] at hcon
      rw [show n = (['f', 'l', ':', '\x7b'] : List Char).length + (n - 4) from by simp <;> omega]
        at hcon
      rw [List.drop_append] at hcon
      rw [List.drop_append_of_le_length (by omega)] at hcon
      have hsw := listStartsWith_of_append _ hcon (by rw [List.length_drop]; omega)
      have := containsSub_of_drop (n - 4) (by omega) hsw
      rw [hm] at this
      exact Bool.false_ne_true this
    · push_neg at hwin
      have hi : 4 + mt.length - n < pat.length := by omega
      have h := hgetfull (4 + mt.length - n) hi
      rw [show n + (4 + mt.length - n) = 4 + mt.length from by omega] at h
      rw [List.get?_append (by simp <;> omega)] at h
      rw [List.get?_append_right (by simp <;> omega)] at h
      rw [show 4 + mt.length - ((['f', 'l', ':', '\x7b'] ++ mt : List Char)).length = 0
        from by simp <;> omega] at h
      exact (hnobrace _ hi).2 h.symm

theorem replaceFirstAux_entry (mt ys pat rep : List Char)
    (hpat : pat.all (fun c => !(c == '\x7b' || c == '\x7d')) = true)
    (hlen : 4 ≤ pat.length)
    (hm : containsSub mt pat = false) :
    replaceFirstAux pat rep ((['f', 'l', ':', '\x7b'] ++ mt ++ ['\x7d']) ++ (pat ++ ys))
      = (['f', 'l', ':', '\x7b'] ++ mt ++ ['\x7d']) ++ (rep ++ ys) := by
  have hne : pat ≠ [] := by
    intro h
    rw [h] at hlen
    simp at hlen
  exact replaceFirstAux_middle pat rep ys hne _
    (state_no_early_occurrence mt pat ys hpat hlen hm)

theorem replaceFirst_flKey (m site tsStr state1 state2 pat rep : String)
    (hp1 : pat.toList = (":" ++ state1 ++ ":").toList)
    (hp2 : rep.toList = (":" ++ state2 ++ ":").toList)
    (hpat : pat.toList.all (fun c => !(c == '\x7b' || c == '\x7d')) = true)
    (hlen : 4 ≤ pat.toList.length)
    (hm : containsSub m.toList pat.toList = false) :
    replaceFirst (flKey m state1 site tsStr) pat rep = flKey m state2 site tsStr := by
  have hlist : ∀ st : String,
      ("fl:\x7b" ++ m ++ "\x7d" ++ (":" ++ st ++ ":") ++ m ++ ":" ++ site ++ ":" ++ tsStr).toList
        = ((['f', 'l', ':', '\x7b'] ++ m.toList ++ ['\x7d'])
            ++ ((":" ++ st ++ ":").toList
              ++ (m.toList ++ ([':'] ++ (site.toList ++ ([':'] ++ tsStr.toList)))))) := by
    intro st
    simp [String.toList, String.data_append, List.append_assoc]
  apply String.ext
  show (replaceFirstAux pat.toList rep.toList (flKey m state1 site tsStr).toList).asString.data
      = (flKey m state2 site tsStr).data
  have hround : ∀ l : List Char, l.asString.data = l := fun l => rfl
  rw [hround]
  show replaceFirstAux pat.toList rep.toList (flKey m state1 site tsStr).toList
      = (flKey m state2 site tsStr).toList
  unfold flKey
  rw [hlist state1, hlist state2, hp1, hp2]
  exact replaceFirstAux_entry m.toList _ _ _
    (by rw [← hp1]; exact hpat) (by rw [← hp1]; exact hlen) (by rw [← hp1]; exact hm)

/-- on a benign model name, the promote path's key.replace of :pending: by
:processing: is exactly the structural state retag of the entry key. -/
theorem promote_replace_models_retag (m site : String) (ts : Nat)
    (hb : benignModelName m = true) :
    replaceFirst (keyStr (KeyK.entry m .pending site ts)) ":pending:" ":processing:"
      = keyStr (retagKey (KeyK.entry m .pending site ts) .processing) := by
  have hb1 : containsSub m.toList ":pending:".toList = false := by
    simp only [benignModelName, Bool.and_eq_true, Bool.not_eq_true'] at hb
    exact hb.1.1
  show replaceFirst (flKey m "pending" site (toString ts)) ":pending:" ":processing:"
      = flKey m "processing" site (toString ts)
  exact replaceFirst_flKey m site (toString ts) "pending" "processing" ":pending:" ":processing:"
    (by decide) (by decide) (by decide) (by decide) hb1

/-- on a benign model name, the revert path's key.replace of :processing: by
:pending: is exactly the structural state retag of the entry key. -/
theorem revert_replace_models_retag (m site : String) (ts : Nat)
    (hb : benignModelName m = true) :
    replaceFirst (keyStr (KeyK.entry m .processing site ts)) ":processing:" ":pending:"
      = keyStr (retagKey (KeyK.entry m .processing site ts) .pending) := by
  have hb2 : containsSub m.toList ":processing:".toList = false := by
    simp only [benignModelName, Bool.and_eq_true, Bool.not_eq_true'] at hb
    exact hb.1.2
  show replaceFirst (flKey m "processing" site (toString ts)) ":processing:" ":pending:"
      = flKey m "pending" site (toString ts)
  exact replaceFirst_flKey m site (toString ts) "processing" "pending" ":processing:" ":pending:"
    (by decide) (by decide) (by decide) (by decide) hb2

/-! string-level rendering of the ledger round trip, for the counterexample -/

/-- DatabaseService.getFLUpdates at the string level: keys are matched by the
Redis MATCH pattern fl:(tag m):(state):(m):* — braces and colons are literal
in MATCH, so for a model name without glob metacharacters the pattern is a
literal prefix match. GET plus JSON.parse keeps the parsed documents and drops
the rest. The counterexample store carries no TTLs, so expiry plays no role. -/
def getFLUpdatesS (kv : List (String × Val)) (m state : String) :
    List (String × UpdateDoc) :=
  kv.filterMap (fun e =>
    if listStartsWith
        (("fl:\x7b" ++ m ++ "\x7d" ++ (":" ++ state ++ ":") ++ m ++ ":").toList)
        e.1.toList then
      match e.2 with
      | .update d => some (e.1, d)
      | _ => none
    else none)

/-- RENAME at the string level: the value moves onto dst, overwriting it; a
missing source is a tolerated error reply inside the pipeline. -/
def renameS (kv : List (String × Val)) (src dst : String) : List (String × Val) :=
  match kv.lookup src with
  | none => kv
  | some v => (dst, v) :: kv.filter (fun e => e.1 != src && e.1 != dst)

/-- DatabaseService.markPendingToProcessing at the string level: every fetched
pending key is renamed to key.replace(:pending:, :processing:) — the
first-occurrence replace. -/
def markPendingToProcessingS (kv : List (String × Val)) (m : String) :
    List String × List (String × Val) :=
  let pending := getFLUpdatesS kv m "pending"
  (pending.map (fun p => replaceFirst p.1 ":pending:" ":processing:"),
   pending.foldl
     (fun acc p => renameS acc p.1 (replaceFirst p.1 ":pending:" ":processing:")) kv)

/-- RitaServer.aggregateNow at the string level, insufficient-participants
branch: promote, fetch processing, and when fewer than minParticipants parsed
entries exist rename each fetched key to key.replace(:processing:, :pending:)
and reply aggregated false with the count. The commit branch builds model keys
with no key.replace and is modelled structurally by aggregateNow; it is not
taken in the counterexample (none). -/
def aggregateNowS (m : String) (minP : Nat) (kv : List (String × Val)) :
    Option ((Bool × Nat) × List (String × Val)) :=
  let step1 := markPendingToProcessingS kv m
  let updates := getFLUpdatesS step1.2 m "processing"
  if updates.length < minP then
    some ((false, updates.length),
      updates.foldl
        (fun acc p => renameS acc p.1 (replaceFirst p.1 ":processing:" ":pending:")) step1.2)
  else none

/-- the single pending document of the C3 counterexample: the model name
x:pending:y passes the zod schema (length 1..100, no character restriction). -/
def c3sdoc : UpdateDoc :=
  ⟨⟨"A", "x:pending:y", [("a", [1])], 1, 1, 1000,
    "123e4567-e89b-12d3-a456-426614174000"⟩, 5, "dev"⟩

/-- C3 counterexample: the claim quantifies over every model, but zod lets
the model name x:pending:y through (length 1..100, no charset restriction).
Its single pending entry has key fl:(tag x:pending:y):pending:x:pending:y:A:5
and the first occurrence of :pending: in that key sits INSIDE the hash tag, at
offset 5, so the promote rename sends the entry to the mangled key
fl:(tag x:processing:y):pending:x:pending:y:A:5. That key matches neither the
processing scan nor the pending scan of the model, so the trigger (with
minParticipants 3) sees 0 processing entries, takes the insufficient branch,
reverts nothing, and replies aggregated false — while the entry, present in
the pending ledger view before the call, is visible in NEITHER namespace
afterwards: it does not remain ledger-visible as pending, and it is discarded
from the ledger view, refuting the claim as stated. -/
theorem c3_counterexample :
    replaceFirst (flKey "x:pending:y" "pending" "A" "5") ":pending:" ":processing:"
      = "fl:\x7bx:processing:y\x7d:pending:x:pending:y:A:5" ∧
    (getFLUpdatesS [(flKey "x:pending:y" "pending" "A" "5", Val.update c3sdoc)]
        "x:pending:y" "pending").length = 1 ∧
    aggregateNowS "x:pending:y" 3
        [(flKey "x:pending:y" "pending" "A" "5", Val.update c3sdoc)]
      = some ((false, 0),
          [("fl:\x7bx:processing:y\x7d:pending:x:pending:y:A:5", Val.update c3sdoc)]) ∧
    (getFLUpdatesS [("fl:\x7bx:processing:y\x7d:pending:x:pending:y:A:5", Val.update c3sdoc)]
        "x:pending:y" "pending").length = 0 ∧
    (getFLUpdatesS [("fl:\x7bx:processing:y\x7d:pending:x:pending:y:A:5", Val.update c3sdoc)]
        "x:pending:y" "processing").length = 0 := by
  refine ⟨?_, ?_, ?_, ?_, ?_⟩ <;> with_unfolding_all rfl

/-! ### Claim C3 -/

/-- the store produced by the insufficient-participants branch of
aggregateNow: promote, then rename every fetched processing entry back to
pending. -/
def revertedStore (m : String) (now : Nat) (st : Store) : Store :=
  moveAll (markPendingToProcessing st m now).2
    ((getFLUpdates (markPendingToProcessing st m now).2 m .processing now).map
      (fun p => (p.1, retagKey p.1 .pending))) now

/-- C3 (amended): for a BENIGN model name — one containing neither :pending:
nor :processing: as a substring and no glob metacharacter, so that the
first-occurrence key.replace is the state retag and the MATCH scan is a
literal prefix (see benignModelName and the two replace_models_retag
theorems) — when fewer than minParticipants parsed processing entries exist
after promotion, aggregateNow replies aggregated false with reason
not_enough_participants and the processing count, renames every fetched
processing entry back into the pending namespace (each is ledger-visible as
pending afterwards), commits no model version (versioned keys, the latest
pointer and the history list are untouched), and discards no ledger entry:
every parsed entry of the original store, pending or processing, survives as a
pending entry. Without the benign-name restriction the claim is false on
reachable inputs (c3_counterexample). Remaining hypotheses: at most one
physical record per key, and no site/timestamp pair simultaneously live in
both namespaces (which the timestamped key construction maintains). -/
theorem c3_insufficient_participants_reverts
    (m : String) (minP now : Nat) (st : Store)
    (hbenign : benignModelName m = true)
    (hwf : st.Wf)
    (hcoll : ∀ site ts, ¬(((st.getLive (.entry m .pending site ts) now).isSome = true) ∧
      ((st.getLive (.entry m .processing site ts) now).isSome = true)))
    (hcount : (getFLUpdates (markPendingToProcessing st m now).2 m
      .processing now).length < minP) :
    aggregateNow m minP now st =
      some ({ aggregated := false, reason := some "not_enough_participants",
              participants := (getFLUpdates (markPendingToProcessing st m now).2 m
                .processing now).length,
              version := none, moved := (markPendingToProcessing st m now).1 },
        revertedStore m now st) ∧
    (∀ p ∈ getFLUpdates (markPendingToProcessing st m now).2 m .processing now,
      (retagKey p.1 .pending, p.2) ∈ getFLUpdates (revertedStore m now st) m .pending now) ∧
    (∀ v, (revertedStore m now st).getLive (.modelVersion m v) now =
      st.getLive (.modelVersion m v) now) ∧
    ((revertedStore m now st).getLive (.modelLatest m) now =
      st.getLive (.modelLatest m) now) ∧
    ((revertedStore m now st).lists = st.lists) ∧
    (∀ s : EntryState, ∀ p ∈ getFLUpdates st m s now,
      (retagKey p.1 .pending, p.2) ∈ getFLUpdates (revertedStore m now st) m .pending now) := by
  have hP := @getFLUpdates_keys_nodup st m .pending now hwf
  have hPshape : ∀ p ∈ getFLUpdates st m .pending now,
      ∃ site ts, p.1 = KeyK.entry m .pending site ts := by
    intro p hp
    exact ((getFLUpdates_mem_iff hwf).mp hp).1
  have hPlive : ∀ p ∈ getFLUpdates st m .pending now,
      (st.getLive p.1 now).isSome = true := by
    intro p hp
    obtain ⟨x, hx⟩ := ((getFLUpdates_mem_iff hwf).mp hp).2
    rw [hx]
    rfl
  have hpairs1srcs : (((getFLUpdates st m .pending now).map
      (fun p => (p.1, retagKey p.1 .processing))).map Prod.fst).Nodup := by
    rw [List.map_map]
    exact hP
  have hpairs1dsts : (((getFLUpdates st m .pending now).map
      (fun p => (p.1, retagKey p.1 .processing))).map Prod.snd).Nodup := by
    rw [List.map_map]
    exact retag_keys_nodup hPshape hP
  have hpairs1disj : ∀ p ∈ (getFLUpdates st m .pending now).map
        (fun p => (p.1, retagKey p.1 .processing)),
      ∀ q ∈ (getFLUpdates st m .pending now).map
        (fun p => (p.1, retagKey p.1 .processing)), p.1 ≠ q.2 := by
    intro p hp q hq
    obtain ⟨a, ha, rfl⟩ := List.mem_map.mp hp
    obtain ⟨b, hb, rfl⟩ := List.mem_map.mp hq
    obtain ⟨sa, tsa, hka⟩ := hPshape a ha
    obtain ⟨sb, tsb, hkb⟩ := hPshape b hb
    rw [hka, hkb, retag_entry]
    intro he
    injection he with e1 e2 e3 e4
    cases e2
  have hpairs1live : ∀ p ∈ (getFLUpdates st m .pending now).map
        (fun p => (p.1, retagKey p.1 .processing)),
      (st.getLive p.1 now).isSome = true := by
    intro p hp
    obtain ⟨a, ha, rfl⟩ := List.mem_map.mp hp
    exact hPlive a ha
  have hst1def : (markPendingToProcessing st m now).2 =
      moveAll st ((getFLUpdates st m .pending now).map
        (fun p => (p.1, retagKey p.1 .processing))) now := rfl
  have hwf1 : (markPendingToProcessing st m now).2.Wf := by
    rw [hst1def]
    exact moveAll_wf hwf
  have hU := @getFLUpdates_keys_nodup (markPendingToProcessing st m now).2
    m .processing now hwf1
  have hUshape : ∀ p ∈ getFLUpdates (markPendingToProcessing st m now).2 m .processing now,
      ∃ site ts, p.1 = KeyK.entry m .processing site ts := by
    intro p hp
    exact ((getFLUpdates_mem_iff hwf1).mp hp).1
  have hUlive : ∀ p ∈ getFLUpdates (markPendingToProcessing st m now).2 m .processing now,
      ((markPendingToProcessing st m now).2.getLive p.1 now).isSome = true := by
    intro p hp
    obtain ⟨x, hx⟩ := ((getFLUpdates_mem_iff hwf1).mp hp).2
    rw [hx]
    rfl
  have hpairs2srcs : (((getFLUpdates (markPendingToProcessing st m now).2 m
      .processing now).map (fun p => (p.1, retagKey p.1 .pending))).map Prod.fst).Nodup := by
    rw [List.map_map]
    exact hU
  have hpairs2dsts : (((getFLUpdates (markPendingToProcessing st m now).2 m
      .processing now).map (fun p => (p.1, retagKey p.1 .pending))).map Prod.snd).Nodup := by
    rw [List.map_map]
    exact retag_keys_nodup hUshape hU
  have hpairs2disj : ∀ p ∈ (getFLUpdates (markPendingToProcessing st m now).2 m
        .processing now).map (fun p => (p.1, retagKey p.1 .pending)),
      ∀ q ∈ (getFLUpdates (markPendingToProcessing st m now).2 m
        .processing now).map (fun p => (p.1, retagKey p.1 .pending)), p.1 ≠ q.2 := by
    intro p hp q hq
    obtain ⟨a, ha, rfl⟩ := List.mem_map.mp hp
    obtain ⟨b, hb, rfl⟩ := List.mem_map.mp hq
    obtain ⟨sa, tsa, hka⟩ := hUshape a ha
    obtain ⟨sb, tsb, hkb⟩ := hUshape b hb
    rw [hka, hkb, retag_entry]
    intro he
    injection he with e1 e2 e3 e4
    cases e2
  have hpairs2live : ∀ p ∈ (getFLUpdates (markPendingToProcessing st m now).2 m
        .processing now).map (fun p => (p.1, retagKey p.1 .pending)),
      ((markPendingToProcessing st m now).2.getLive p.1 now).isSome = true := by
    intro p hp
    obtain ⟨a, ha, rfl⟩ := List.mem_map.mp hp
    exact hUlive a ha
  have hST2def : revertedStore m now st =
      moveAll (markPendingToProcessing st m now).2
        ((getFLUpdates (markPendingToProcessing st m now).2 m .processing now).map
          (fun p => (p.1, retagKey p.1 .pending))) now := rfl
  have hwf2 : (revertedStore m now st).Wf := by
    rw [hST2def]
    exact moveAll_wf hwf1
  have hrevert : ∀ p ∈ getFLUpdates (markPendingToProcessing st m now).2 m
        .processing now,
      (retagKey p.1 .pending, p.2) ∈
        getFLUpdates (revertedStore m now st) m .pending now := by
    intro p hp
    obtain ⟨site, ts, hk⟩ := hUshape p hp
    obtain ⟨x, hx⟩ := ((getFLUpdates_mem_iff hwf1).mp hp).2
    have hmv : (revertedStore m now st).getLive (retagKey p.1 .pending) now =
        (markPendingToProcessing st m now).2.getLive p.1 now := by
      rw [hST2def]
      exact moveAll_getLive_pair hpairs2srcs hpairs2dsts hpairs2disj hpairs2live
        p.1 (retagKey p.1 .pending) (List.mem_map.mpr ⟨p, hp, rfl⟩)
    apply (getFLUpdates_mem_iff hwf2).mpr
    constructor
    · refine ⟨site, ts, ?_⟩
      rw [hk, retag_entry]
    · refine ⟨x, ?_⟩
      rw [hmv, hx]
  have hother : ∀ k : KeyK, (∀ site ts s2, k ≠ KeyK.entry m s2 site ts) →
      (revertedStore m now st).getLive k now = st.getLive k now := by
    intro k hk
    have h2 : ∀ p ∈ (getFLUpdates (markPendingToProcessing st m now).2 m
          .processing now).map (fun p => (p.1, retagKey p.1 .pending)),
        k ≠ p.1 ∧ k ≠ p.2 := by
      intro p hp
      obtain ⟨a, ha, rfl⟩ := List.mem_map.mp hp
      obtain ⟨sa, tsa, hka⟩ := hUshape a ha
      rw [hka, retag_entry]
      exact ⟨hka ▸ hk sa tsa .processing, hk sa tsa .pending⟩
    have h1 : ∀ p ∈ (getFLUpdates st m .pending now).map
          (fun p => (p.1, retagKey p.1 .processing)),
        k ≠ p.1 ∧ k ≠ p.2 := by
      intro p hp
      obtain ⟨a, ha, rfl⟩ := List.mem_map.mp hp
      obtain ⟨sa, tsa, hka⟩ := hPshape a ha
      rw [hka, retag_entry]
      exact ⟨hka ▸ hk sa tsa .pending, hk sa tsa .processing⟩
    rw [hST2def, moveAll_getLive_other h2, hst1def, moveAll_getLive_other h1]
  refine ⟨?_, hrevert, ?_, ?_, ?_, ?_⟩
  · simp only [aggregateNow]
    rw [if_pos hcount]
    rfl
  · intro v
    exact hother _ (fun site ts s2 he => by cases he)
  · exact hother _ (fun site ts s2 he => by cases he)
  · rw [hST2def, moveAll_lists, hst1def, moveAll_lists]
  · intro s p hp
    cases s with
    | processing =>
      apply hrevert
      obtain ⟨site, ts, hk⟩ := ((getFLUpdates_mem_iff hwf).mp hp).1
      obtain ⟨x, hx⟩ := ((getFLUpdates_mem_iff hwf).mp hp).2
      have hne : ∀ q ∈ (getFLUpdates st m .pending now).map
            (fun p => (p.1, retagKey p.1 .processing)),
          p.1 ≠ q.1 ∧ p.1 ≠ q.2 := by
        intro q hq
        obtain ⟨a, ha, rfl⟩ := List.mem_map.mp hq
        obtain ⟨sa, tsa, hka⟩ := hPshape a ha
        constructor
        · rw [hk, hka]
          intro he
          injection he with e1 e2 e3 e4
          cases e2
        · rw [hk, hka, retag_entry]
          intro he
          injection he with e1 e2 e3 e4
          subst e3
          subst e4
          apply hcoll site ts
          constructor
          · have := hPlive a ha
            rw [hka] at this
            exact this
          · rw [← hk, hx]
            rfl
      apply (getFLUpdates_mem_iff hwf1).mpr
      refine ⟨⟨site, ts, hk⟩, x, ?_⟩
      rw [hst1def, moveAll_getLive_other hne, hx]
    | pending =>
      obtain ⟨site, ts, hk⟩ := ((getFLUpdates_mem_iff hwf).mp hp).1
      obtain ⟨x, hx⟩ := ((getFLUpdates_mem_iff hwf).mp hp).2
      have hmem2 : (retagKey p.1 .processing, p.2) ∈
          getFLUpdates (markPendingToProcessing st m now).2 m .processing now := by
        apply (getFLUpdates_mem_iff hwf1).mpr
        constructor
        · refine ⟨site, ts, ?_⟩
          rw [hk, retag_entry]
        · refine ⟨x, ?_⟩
          have := moveAll_getLive_pair hpairs1srcs hpairs1dsts hpairs1disj hpairs1live
            p.1 (retagKey p.1 .processing) (List.mem_map.mpr ⟨p, hp, rfl⟩)
          rw [hst1def, this, hx]
      have := hrevert (retagKey p.1 .processing, p.2) hmem2
      rw [show retagKey (retagKey p.1 .processing, p.2).1 .pending =
          retagKey p.1 .pending from by rw [hk]; rfl] at this
      exact this

/-- the single pending document of the C3 witness store. -/
def c3doc : UpdateDoc :=
  ⟨⟨"A", "m", [("a", [1])], 1, 1, 1000, "123e4567-e89b-12d3-a456-426614174000"⟩, 5, "dev"⟩

/-- a ledger holding one pending update for model m. -/
def c3st : Store := ⟨[⟨.entry "m" .pending "A" 5, .update c3doc, some 999999⟩], [], []⟩

set_option maxRecDepth 8192 in
/-- C3 witness: with the benign model name m, one pending entry and
minParticipants 2, the trigger reports not_enough_participants with
participants 1, and the promoted entry is ledger-visible as pending again in
the resulting store. -/
theorem c3_witness :
    aggregateNow "m" 2 10 c3st =
      some ({ aggregated := false, reason := some "not_enough_participants",
              participants := 1, version := none,
              moved := [KeyK.entry "m" .processing "A" 5] }, revertedStore "m" 10 c3st) ∧
    (KeyK.entry "m" .pending "A" 5, c3doc) ∈
      getFLUpdates (revertedStore "m" 10 c3st) "m" .pending 10 := by
  have h := c3_insufficient_participants_reverts "m" 2 10 c3st
    (by decide)
    (by
      unfold Store.Wf
      decide)
    (by
      intro site ts hcontra
      exact Bool.false_ne_true hcontra.2)
    (by with_unfolding_all decide)
  constructor
  · exact h.1
  · exact h.2.1 (KeyK.entry "m" .processing "A" 5, c3doc) (by with_unfolding_all decide)
